import Mathlib

/-!
Verification of the upb streaming protobuf decoder and def layer.

This development gives a shallow embedding of the core of upb, a minimalist
protocol-buffers runtime, and proves the specification's claims about it.

The repository ships the declarations of the def layer (`upb/def.h`) and the
decoder's test harness (`tests/test_decoder.cc`); the decoder implementation
(`decoder.c`) and the def implementation (`def.c`) are not part of the
source tree.  Following the specification (sections 3.4 and 4.5 for the
decoder, sections 3.2, 4.1 and 4.2 for defs) we model those missing parts
as executable Lean functions.  Constants, the wire-type table, the test
schema and the test inputs are taken directly from the sources.
-/

namespace Upb

/-- Maximum nesting depth of decoder frames (`UPB_MAX_NESTING`).
Modelled from the spec: "Fixed-depth array of frames (bound = MAX_NESTING,
e.g. 64)". -/
def MAX_NESTING : Nat := 64

/-- Maximum protobuf field number (`UPB_MAX_FIELDNUMBER`), 2^29 - 1. -/
def MAX_FIELDNUMBER : Nat := 2 ^ 29 - 1

/-- Wire type codes, from the spec's wire model: Varint(0), 64bit(1),
Delimited(2), StartGroup(3), EndGroup(4), 32bit(5). -/
def WT_VARINT : Nat := 0
def WT_64BIT : Nat := 1
def WT_DELIMITED : Nat := 2
def WT_START_GROUP : Nat := 3
def WT_END_GROUP : Nat := 4
def WT_32BIT : Nat := 5

/-- The 18 descriptor types of `upb_descriptortype_t` (def.h lines 190-209),
in their declared order (DOUBLE = 1 .. SINT64 = 18). -/
inductive DescType where
  | double | float | int64 | uint64 | int32 | fixed64 | fixed32 | bool
  | string | group | message | bytes | uint32 | enum | sfixed32 | sfixed64
  | sint32 | sint64
deriving DecidableEq, Repr

/-- Numeric code of a descriptor type, as in `upb_descriptortype_t`. -/
def DescType.code : DescType → Nat
  | .double => 1 | .float => 2 | .int64 => 3 | .uint64 => 4 | .int32 => 5
  | .fixed64 => 6 | .fixed32 => 7 | .bool => 8 | .string => 9 | .group => 10
  | .message => 11 | .bytes => 12 | .uint32 => 13 | .enum => 14
  | .sfixed32 => 15 | .sfixed64 => 16 | .sint32 => 17 | .sint64 => 18

/-- Descriptor type with the given numeric code, if any. -/
def descTypeOfCode (n : Nat) : Option DescType :=
  match n with
  | 1 => some .double | 2 => some .float | 3 => some .int64
  | 4 => some .uint64 | 5 => some .int32 | 6 => some .fixed64
  | 7 => some .fixed32 | 8 => some .bool | 9 => some .string
  | 10 => some .group | 11 => some .message | 12 => some .bytes
  | 13 => some .uint32 | 14 => some .enum | 15 => some .sfixed32
  | 16 => some .sfixed64 | 17 => some .sint32 | 18 => some .sint64
  | _ => none

/-- Native wire type of each descriptor type; this is the
`upb_decoder_types` table copied into tests/test_decoder.cc (lines 50-70)
from decoder.c. -/
def DescType.wireType : DescType → Nat
  | .double => WT_64BIT
  | .float => WT_32BIT
  | .int64 => WT_VARINT
  | .uint64 => WT_VARINT
  | .int32 => WT_VARINT
  | .fixed64 => WT_64BIT
  | .fixed32 => WT_32BIT
  | .bool => WT_VARINT
  | .string => WT_DELIMITED
  | .group => WT_START_GROUP
  | .message => WT_DELIMITED
  | .bytes => WT_DELIMITED
  | .uint32 => WT_VARINT
  | .enum => WT_VARINT
  | .sfixed32 => WT_32BIT
  | .sfixed64 => WT_64BIT
  | .sint32 => WT_VARINT
  | .sint64 => WT_VARINT

/-- The `is_numeric` column of the `upb_decoder_types` table
(tests/test_decoder.cc lines 50-70): types whose elements may appear in a
packed repeated block. -/
def DescType.isNumeric : DescType → Bool
  | .string => false
  | .group => false
  | .message => false
  | .bytes => false
  | _ => true

/-- Varint encoding (`upb_vencode64` of upb/pb/varint.h, used by the test
harness `varint()` builder): little-endian base-128 with MSB continuation.
The fuel argument bounds recursion; 10 bytes suffice for any value below
2^70, in particular for all 64-bit values. -/
def vencF : Nat → Nat → List Nat
  | 0, _ => []
  | fuel + 1, x => if x < 128 then [x] else (x % 128 + 128) :: vencF fuel (x / 128)

/-- Varint encoding of a value below 2^64. -/
def venc (x : Nat) : List Nat := vencF 10 x

/-- Two's-complement reading of a 32-bit unsigned value. -/
def toS32 (u : Nat) : Int := if u < 2 ^ 31 then (u : Int) else (u : Int) - 2 ^ 32

/-- Two's-complement reading of a 64-bit unsigned value. -/
def toS64 (u : Nat) : Int := if u < 2 ^ 63 then (u : Int) else (u : Int) - 2 ^ 64

/-- Zig-zag decode at width 32.  Modelled from the spec:
"`Varint` + integer_format=ZigZag: apply zig-zag decode ((n>>1)^-(n&1)) at
the declared width."  The arithmetic is that of a 32-bit unsigned machine:
`-(n&1)` is `(2^32 - (n&&&1)) % 2^32` and the result is read back as a
signed 32-bit value. -/
def zzdec32 (u : Nat) : Int :=
  toS32 ((u >>> 1) ^^^ ((2 ^ 32 - (u &&& 1)) % 2 ^ 32))

/-- Zig-zag decode at width 64 (same formula at the declared width). -/
def zzdec64 (u : Nat) : Int :=
  toS64 ((u >>> 1) ^^^ ((2 ^ 64 - (u &&& 1)) % 2 ^ 64))

/-- Zig-zag encoding of a signed 32-bit value (`upb_zzenc_32`, used by the
test harness `zz32`; the glossary gives the formula `(n<<1)^(n>>31)`, which
maps v ≥ 0 to 2v and v < 0 to 2(-v)-1). -/
def zzenc32 (v : Int) : Nat :=
  if 0 ≤ v then 2 * v.toNat else 2 * (-v).toNat - 1

/-- Zig-zag encoding of a signed 64-bit value (`upb_zzenc_64`). -/
def zzenc64 (v : Int) : Nat :=
  if 0 ≤ v then 2 * v.toNat else 2 * (-v).toNat - 1

/-- Typed values passed to value handlers (spec 4.5.4).  Floating-point
values are represented by their wire bit patterns ("reinterpret bits"). -/
inductive DVal where
  | i (v : Int)
  | u (v : Nat)
  | b (v : Bool)
  | f32 (bits : Nat)
  | f64 (bits : Nat)
deriving DecidableEq, Repr

/-- Handler events, the observable trace of a decode (spec 3.3, 4.5.3,
4.5.5, 4.5.6).  String bodies are delivered byte by byte, which is the
buffer-boundary-independent form of the `StringBuf` callbacks (the test
handlers concatenate whatever chunks they receive). -/
inductive Event where
  | startMsg
  | endMsg
  | startSeq (fn : Nat)
  | endSeq (fn : Nat)
  | startSubMsg (fn : Nat)
  | endSubMsg (fn : Nat)
  | startStr (fn : Nat) (hint : Nat)
  | strByte (b : Nat)
  | endStr (fn : Nat)
  | value (fn : Nat) (v : DVal)
deriving DecidableEq, Repr

/-- Decoder error codes (spec section 6, "Errors surfaced via status
object").  `badWireType` covers the reserved wire-type codes 6 and 7,
which the spec's list does not name. -/
inductive DErr where
  | eofInTag
  | badFieldNumber
  | typeMismatch
  | eofInValue
  | truncatedSubmessage
  | badGroupNesting
  | maxDepthExceeded
  | badVarint
  | badWireType
deriving DecidableEq, Repr

/-- What a frame is delimited by (spec 3.4): the top-level message, a
length-delimited submessage (with its remaining byte budget), or a group
(closed by a matching EndGroup tag). -/
inductive FrameKind where
  | top
  | sub (fn : Nat) (rem : Nat)
  | group (fn : Nat)
deriving DecidableEq, Repr

/-- A decoder frame (spec 3.4): its delimitation, the field number of the
currently open implicit sequence (if any), and whether the frame's
contents are skipped (an unknown group). -/
structure Frame where
  kind : FrameKind
  seqOpen : Option Nat
  skip : Bool
deriving DecidableEq, Repr

/-- A field's schema entry: descriptor type and repeated-ness.  This is
the part of a fielddef the wire decoder consults. -/
structure FieldSpec where
  dtype : DescType
  repeated : Bool
deriving DecidableEq, Repr

/-- A message schema maps field numbers to field specs. -/
def Schema := Nat → Option FieldSpec

/-- In-element state of a packed repeated body. -/
inductive PElem where
  | varintE (acc shift n : Nat)
  | fixedE (need acc got : Nat)
deriving DecidableEq, Repr

/-- What the delimited length being parsed is for. -/
inductive DelimKind where
  | str
  | subm
  | packedK (dt : DescType)
  | unknown
deriving DecidableEq, Repr

/-- Per-frame parse state (spec 4.5.1): expecting a tag (with the partial
tag varint), inside a value varint, inside a fixed-width value, inside a
delimited header, inside a string body, skipping an unknown value, or
inside a packed repeated body. -/
inductive PState where
  | tag (acc shift n : Nat)
  | varintVal (fn : Nat) (dt : DescType) (acc shift n : Nat)
  | fixedVal (fn : Nat) (dt : DescType) (need acc got : Nat)
  | delimLen (fn : Nat) (dk : DelimKind) (acc shift n : Nat)
  | strBody (fn : Nat) (rem : Nat)
  | skipBytes (rem : Nat)
  | skipVarint (n : Nat)
  | skipFixed (rem : Nat)
  | packed (fn : Nat) (dt : DescType) (rem : Nat) (elem : Option PElem)
deriving DecidableEq, Repr

/-- The whole decoder state: frame stack (innermost first; the bottom
frame is the top-level message), parse state of the innermost frame, the
events emitted so far, and a sticky error. -/
structure DState where
  stack : List Frame
  ps : PState
  events : List Event
  err : Option DErr
deriving DecidableEq, Repr

/-- The fresh parse state: expecting a tag, nothing buffered. -/
def freshTag : PState := .tag 0 0 0

/-- One step of the varint accumulator shared by tag, value, length and
skip parsing: `more` keeps accumulating, `done` yields the value, `bad`
is a varint of more than 10 bytes or more than 64 bits. -/
inductive VStep where
  | more (acc shift n : Nat)
  | done (v : Nat)
  | bad
deriving DecidableEq, Repr

/-- Feed one byte to a varint in progress (`acc` bits so far, next byte
contributes at `shift`, `n` bytes consumed). -/
def vstep (acc shift n b : Nat) : VStep :=
  let acc' := acc + b % 128 * 2 ^ shift
  if b < 128 then
    if acc' < 2 ^ 64 then .done acc' else .bad
  else if n + 1 ≥ 10 then .bad
  else .more acc' (shift + 7) (n + 1)

/-- Decrement the byte budget of a length-delimited frame. -/
def tickFrame (f : Frame) : Frame :=
  match f.kind with
  | .sub fn r => { f with kind := .sub fn (r - 1) }
  | _ => f

/-- Every enclosing length-delimited frame consumes one byte of budget
per input byte. -/
def tickStack (st : List Frame) : List Frame := st.map tickFrame

/-- Byte budget of the innermost length-delimited frame, if any. -/
def firstSubRem : List Frame → Option Nat
  | [] => none
  | ⟨.sub _ r, _, _⟩ :: _ => some r
  | _ :: t => firstSubRem t

/-- A delimited body of length `L` starting here must fit inside the
innermost enclosing length-delimited frame. -/
def fitsStack (st : List Frame) (L : Nat) : Bool :=
  match firstSubRem st with
  | none => true
  | some r => L ≤ r

/-- The events closing an open implicit sequence. -/
def closeSeqEvs : Option Nat → List Event
  | some g => [.endSeq g]
  | none => []

/-- Apply a function to the innermost frame. -/
def mapHead (f : Frame → Frame) : List Frame → List Frame
  | [] => []
  | h :: t => f h :: t

/-- Record an error. -/
def setErr (s : DState) (e : DErr) : DState := { s with err := some e }

/-- Conversion of a raw wire value to the handler's typed parameter
(spec 4.5.4): two's-complement truncation at the declared width, zig-zag
for SINT types, `value != 0` for bool, raw bits for floats. -/
def convert (dt : DescType) (v : Nat) : DVal :=
  match dt with
  | .int32 => .i (toS32 (v % 2 ^ 32))
  | .enum => .i (toS32 (v % 2 ^ 32))
  | .int64 => .i (toS64 v)
  | .uint32 => .u (v % 2 ^ 32)
  | .uint64 => .u v
  | .bool => .b (v ≠ 0)
  | .sint32 => .i (zzdec32 (v % 2 ^ 32))
  | .sint64 => .i (zzdec64 v)
  | .fixed32 => .u v
  | .fixed64 => .u v
  | .sfixed32 => .i (toS32 v)
  | .sfixed64 => .i (toS64 v)
  | .float => .f32 v
  | .double => .f64 v
  | _ => .u v

/-- Implicit sequence framing at a tag for a known field (spec 4.5.3):
entering a repeated field opens a sequence if none is open for that field
number, closing any other open sequence first; entering a non-repeated
field closes any open sequence. -/
def seqAdjust (s : DState) (repeated : Bool) (fn : Nat) : DState :=
  match s.stack with
  | f :: rest =>
    if repeated then
      match f.seqOpen with
      | some g =>
        if g = fn then s
        else { s with
               events := s.events ++ [.endSeq g, .startSeq fn],
               stack := { f with seqOpen := some fn } :: rest }
      | none =>
        { s with
          events := s.events ++ [.startSeq fn],
          stack := { f with seqOpen := some fn } :: rest }
    else
      match f.seqOpen with
      | some g =>
        { s with
          events := s.events ++ [.endSeq g],
          stack := { f with seqOpen := none } :: rest }
      | none => s
  | [] => s

/-- Handle a completely parsed tag (spec 4.5.2): validate the field
number, handle EndGroup, look the field up, validate the wire type
against the schema, and set up parsing of the value. -/
def dispatchTag (sch : Schema) (s : DState) (v : Nat) : DState :=
  let fn := v / 8
  let wt := v % 8
  if fn = 0 ∨ fn > MAX_FIELDNUMBER then setErr s .badFieldNumber
  else if wt = WT_END_GROUP then
    match s.stack with
    | ⟨.group gfn, seqo, skp⟩ :: rest =>
      if gfn = fn then
        { s with
          stack := rest,
          ps := freshTag,
          events := s.events ++
            (if skp then [] else closeSeqEvs seqo ++ [.endMsg, .endSubMsg fn]) }
      else setErr s .badGroupNesting
    | _ => setErr s .badGroupNesting
  else if wt = 6 ∨ wt = 7 then setErr s .badWireType
  else
    let inSkip := match s.stack with
      | f :: _ => f.skip
      | [] => false
    match (if inSkip then none else sch fn) with
    | none =>
      -- Unknown field: close any open sequence, then consume the value
      -- without invoking handlers.
      let s := seqAdjust s false fn
      if wt = WT_VARINT then { s with ps := .skipVarint 0 }
      else if wt = WT_64BIT then { s with ps := .skipFixed 8 }
      else if wt = WT_32BIT then { s with ps := .skipFixed 4 }
      else if wt = WT_DELIMITED then { s with ps := .delimLen fn .unknown 0 0 0 }
      else -- WT_START_GROUP: skip the whole group
        if s.stack.length ≥ MAX_NESTING then setErr s .maxDepthExceeded
        else { s with stack := ⟨.group fn, none, true⟩ :: s.stack, ps := freshTag }
    | some fs =>
      if wt = fs.dtype.wireType then
        let s := seqAdjust s fs.repeated fn
        if wt = WT_VARINT then { s with ps := .varintVal fn fs.dtype 0 0 0 }
        else if wt = WT_64BIT then { s with ps := .fixedVal fn fs.dtype 8 0 0 }
        else if wt = WT_32BIT then { s with ps := .fixedVal fn fs.dtype 4 0 0 }
        else if wt = WT_DELIMITED then
          let dk : DelimKind := if fs.dtype = .message then .subm else .str
          { s with ps := .delimLen fn dk 0 0 0 }
        else -- WT_START_GROUP
          if s.stack.length ≥ MAX_NESTING then setErr s .maxDepthExceeded
          else
            { s with
              events := s.events ++ [.startSubMsg fn, .startMsg],
              stack := ⟨.group fn, none, false⟩ :: s.stack,
              ps := freshTag }
      else if wt = WT_DELIMITED ∧ fs.repeated ∧ fs.dtype.isNumeric then
        -- Packed repeated block: exactly one StartSequence now.
        let s := seqAdjust s false fn
        { s with
          events := s.events ++ [.startSeq fn],
          ps := .delimLen fn (.packedK fs.dtype) 0 0 0 }
      else setErr s .typeMismatch

/-- Handle a completely parsed delimited-length header (spec 4.5.5,
4.5.6): start a string body, push a submessage frame (checking the depth
limit and the enclosing budget), start a packed body, or skip unknown
bytes. -/
def dispatchDelim (s : DState) (fn : Nat) (dk : DelimKind) (L : Nat) : DState :=
  match dk with
  | .str =>
    { s with events := s.events ++ [.startStr fn L], ps := .strBody fn L }
  | .unknown => { s with ps := .skipBytes L }
  | .packedK dt => { s with ps := .packed fn dt L none }
  | .subm =>
    if s.stack.length ≥ MAX_NESTING then setErr s .maxDepthExceeded
    else if ¬ fitsStack s.stack L then setErr s .truncatedSubmessage
    else
      { s with
        events := s.events ++ [.startSubMsg fn, .startMsg],
        stack := ⟨.sub fn L, none, false⟩ :: s.stack,
        ps := freshTag }

/-- Result of feeding one byte to a packed-body element. -/
inductive EStep where
  | more (e : PElem)
  | done (v : Nat)
  | bad
deriving DecidableEq, Repr

/-- Feed one byte of a packed body to the current element (spec 4.5.1,
`InPackedBody`): elements are parsed by the element type's native wire
format. -/
def pstepElem (dt : DescType) (elem : Option PElem) (b : Nat) : EStep :=
  match elem with
  | none =>
    if dt.wireType = WT_VARINT then
      match vstep 0 0 0 b with
      | .more a sh n => .more (.varintE a sh n)
      | .done v => .done v
      | .bad => .bad
    else
      -- first byte of a fixed-width element; 4 and 8 byte widths never
      -- complete on the first byte
      .more (.fixedE (if dt.wireType = WT_64BIT then 8 else 4) b 1)
  | some (.varintE acc shift n) =>
    match vstep acc shift n b with
    | .more a sh n => .more (.varintE a sh n)
    | .done v => .done v
    | .bad => .bad
  | some (.fixedE need acc got) =>
    let acc' := acc + b * 2 ^ (8 * got)
    if got + 1 = need then .done acc' else .more (.fixedE need acc' (got + 1))

/-- Process one input byte against the parse state, after the enclosing
frame budgets have been decremented.  Frame exits are handled afterwards
by `settle`. -/
def stepByte (sch : Schema) (s : DState) (b : Nat) : DState :=
  match s.ps with
  | .tag acc shift n =>
    match vstep acc shift n b with
    | .more a sh n' => { s with ps := .tag a sh n' }
    | .bad => setErr s .badVarint
    | .done v => dispatchTag sch { s with ps := freshTag } v
  | .varintVal fn dt acc shift n =>
    match vstep acc shift n b with
    | .more a sh n' => { s with ps := .varintVal fn dt a sh n' }
    | .bad => setErr s .badVarint
    | .done v =>
      { s with ps := freshTag, events := s.events ++ [.value fn (convert dt v)] }
  | .fixedVal fn dt need acc got =>
    let acc' := acc + b * 2 ^ (8 * got)
    if got + 1 = need then
      { s with ps := freshTag, events := s.events ++ [.value fn (convert dt acc')] }
    else { s with ps := .fixedVal fn dt need acc' (got + 1) }
  | .delimLen fn dk acc shift n =>
    match vstep acc shift n b with
    | .more a sh n' => { s with ps := .delimLen fn dk a sh n' }
    | .bad => setErr s .badVarint
    | .done L => dispatchDelim { s with ps := freshTag } fn dk L
  | .strBody fn r =>
    { s with ps := .strBody fn (r - 1), events := s.events ++ [.strByte b] }
  | .skipBytes r => { s with ps := .skipBytes (r - 1) }
  | .skipVarint n =>
    if b < 128 then { s with ps := freshTag }
    else if n + 1 ≥ 10 then setErr s .badVarint
    else { s with ps := .skipVarint (n + 1) }
  | .skipFixed r =>
    if r - 1 = 0 then { s with ps := freshTag } else { s with ps := .skipFixed (r - 1) }
  | .packed fn dt r elem =>
    match pstepElem dt elem b with
    | .bad => setErr s .badVarint
    | .more e => { s with ps := .packed fn dt (r - 1) (some e) }
    | .done v =>
      { s with
        ps := .packed fn dt (r - 1) none,
        events := s.events ++ [.value fn (convert dt v)] }

/-- Normalise a parse state whose byte budget just ran out: close a
finished string body, a finished skip, or a finished packed body (a
packed body ending inside an element is an error). -/
def normPs (s : DState) : DState :=
  match s.ps with
  | .strBody fn 0 => { s with ps := freshTag, events := s.events ++ [.endStr fn] }
  | .skipBytes 0 => { s with ps := freshTag }
  | .packed fn _ 0 none =>
    { s with ps := freshTag, events := s.events ++ [.endSeq fn] }
  | .packed _ _ 0 (some _) => setErr s .eofInValue
  | _ => s

/-- Pop every exhausted length-delimited frame: on frame exit the open
sequence is closed, then EndMessage, then EndSubMessage fire (spec
4.5.6); a skipped (unknown-group) frame emits nothing. -/
def popFrames : List Frame → List Event → List Frame × List Event
  | ⟨.sub fn 0, seqo, skp⟩ :: rest, evs =>
    popFrames rest
      (evs ++ (if skp then [] else closeSeqEvs seqo ++ [.endMsg, .endSubMsg fn]))
  | st, evs => (st, evs)

/-- Frame-exit handling after each byte: normalise the parse state, then
pop exhausted frames; a frame that is exhausted while a construct is
still in progress is a truncated submessage. -/
def settle (s : DState) : DState :=
  let s := normPs s
  if s.err.isSome then s
  else
    match s.ps with
    | .tag 0 0 0 =>
      let p := popFrames s.stack s.events
      { s with stack := p.1, events := p.2 }
    | _ =>
      match s.stack with
      | ⟨.sub _ 0, _, _⟩ :: _ => setErr s .truncatedSubmessage
      | _ => s

/-- Consume one byte: errors are sticky, every enclosing delimited frame
budget decreases by one, the byte is processed, and frame exits settle. -/
def step (sch : Schema) (s : DState) (b : Nat) : DState :=
  if s.err.isSome then s
  else
    let s' := stepByte sch { s with stack := tickStack s.stack } (b % 256)
    if s'.err.isSome then s' else settle s'

/-- `put_buffer`: push a buffer of bytes into the decoder (spec 4.5.8);
partial constructs are held in the state and resumed on the next byte. -/
def putBytes (sch : Schema) (s : DState) (bs : List Nat) : DState :=
  bs.foldl (step sch) s

/-- Push a sequence of buffers into the decoder one after the other. -/
def putChunks (sch : Schema) (s : DState) (chunks : List (List Nat)) : DState :=
  chunks.foldl (putBytes sch) s

/-- The initial decoder state: one top-level frame, expecting a tag,
`StartMessage` already delivered. -/
def dInit : DState :=
  { stack := [⟨.top, none, false⟩], ps := freshTag, events := [.startMsg], err := none }

/-- End-of-stream (spec section 6): succeeds iff the decoder is at a tag
boundary of the top-level frame; the top-level open sequence is closed
and `EndMessage` fires.  A partial tag is `EofInTag`, a partial value
`EofInValue`, an unterminated submessage or group a truncation error. -/
def dFinish (s : DState) : DState :=
  if s.err.isSome then s
  else
    match s.ps, s.stack with
    | .tag 0 0 0, [⟨.top, seqo, _⟩] =>
      { s with
        events := s.events ++ closeSeqEvs seqo ++ [.endMsg],
        stack := [⟨.top, none, false⟩] }
    | .tag 0 0 0, _ => setErr s .truncatedSubmessage
    | .tag _ _ _, _ => setErr s .eofInTag
    | _, _ => setErr s .eofInValue

/-- Decode a whole byte stream in one buffer: the handler event trace on
success, the error code otherwise. -/
def decodeTop (sch : Schema) (bs : List Nat) : Except DErr (List Event) :=
  let f := dFinish (putBytes sch dInit bs)
  match f.err with
  | some e => .error e
  | none => .ok f.events

/-- Decode a byte stream delivered as a sequence of chunks. -/
def decodeChunks (sch : Schema) (chunks : List (List Nat)) : Except DErr (List Event) :=
  let f := dFinish (putChunks sch dInit chunks)
  match f.err with
  | some e => .error e
  | none => .ok f.events

/-- Whether the innermost frame is a length-delimited frame whose budget
is exhausted. -/
def headSub0 : List Frame → Bool
  | ⟨.sub _ 0, _, _⟩ :: _ => true
  | _ => false

/-- The innermost frame can still supply `k` bytes of budget. -/
def headSafe (st : List Frame) (k : Nat) : Prop :=
  match st with
  | ⟨.sub _ r, _, _⟩ :: _ => k ≤ r
  | _ => True

/-- Iterated budget decrement. -/
def tickN : Nat → List Frame → List Frame
  | 0, st => st
  | k + 1, st => tickN k (tickStack st)

/-- The repeated field number corresponding to a non-repeated field
number (`rep_fn` in tests/test_decoder.cc line 286). -/
def rep_fn (fn : Nat) : Nat := MAX_FIELDNUMBER - 1000 + fn

/-- The schema of the decoder tests (tests/test_decoder.cc `reghandlers`):
for every descriptor type `t` (1..18) a non-repeated field with number
`t` and a repeated field with number `rep_fn t`. -/
def testSchema : Schema := fun fn =>
  match descTypeOfCode fn with
  | some t => some ⟨t, false⟩
  | none =>
    if MAX_FIELDNUMBER - 1000 < fn then
      match descTypeOfCode (fn - (MAX_FIELDNUMBER - 1000)) with
      | some t => some ⟨t, true⟩
      | none => none
    else none

/-! ## Basic facts about the step function -/

theorem putBytes_nil (sch : Schema) (s : DState) : putBytes sch s [] = s := rfl

theorem putBytes_cons (sch : Schema) (s : DState) (b : Nat) (bs : List Nat) :
    putBytes sch s (b :: bs) = putBytes sch (step sch s b) bs := rfl

theorem putBytes_append (sch : Schema) (s : DState) (a b : List Nat) :
    putBytes sch s (a ++ b) = putBytes sch (putBytes sch s a) b := by
  simp [putBytes, List.foldl_append]

theorem step_of_err (sch : Schema) (s : DState) (b : Nat) (h : s.err.isSome) :
    step sch s b = s := by
  simp [step, h]

theorem putBytes_of_err (sch : Schema) (s : DState) (bs : List Nat)
    (h : s.err.isSome) : putBytes sch s bs = s := by
  induction bs with
  | nil => rfl
  | cons b bs ih => rw [putBytes_cons, step_of_err sch s b h, ih]

theorem putChunks_eq_join (sch : Schema) (s : DState) (chunks : List (List Nat)) :
    putChunks sch s chunks = putBytes sch s chunks.flatten := by
  induction chunks generalizing s with
  | nil => rfl
  | cons c cs ih =>
    simp only [putChunks, List.foldl_cons, List.flatten_cons, putBytes_append]
    exact ih (putBytes sch s c)

theorem decodeTop_of_err (sch : Schema) (bs : List Nat) (e : DErr)
    (h : (putBytes sch dInit bs).err = some e) :
    decodeTop sch bs = .error e := by
  simp [decodeTop, dFinish, h]

/-! ## Settling lemmas -/

theorem popFrames_noop (st : List Frame) (evs : List Event)
    (h : headSub0 st = false) : popFrames st evs = (st, evs) := by
  match st with
  | [] => rfl
  | ⟨.top, o, k⟩ :: t => rfl
  | ⟨.group fn, o, k⟩ :: t => rfl
  | ⟨.sub fn (r + 1), o, k⟩ :: t => rfl
  | ⟨.sub fn 0, o, k⟩ :: t => simp [headSub0] at h

theorem settle_fresh (st : List Frame) (evs : List Event)
    (h : headSub0 st = false) :
    settle ⟨st, freshTag, evs, none⟩ = ⟨st, freshTag, evs, none⟩ := by
  simp [settle, normPs, freshTag, popFrames_noop st evs h]

theorem settle_mid (st : List Frame) (ps : PState) (evs : List Event)
    (h : headSub0 st = false)
    (hn : normPs ⟨st, ps, evs, none⟩ = ⟨st, ps, evs, none⟩)
    (hf : ps ≠ freshTag) :
    settle ⟨st, ps, evs, none⟩ = ⟨st, ps, evs, none⟩ := by
  simp only [settle, hn]
  match ps, hf with
  | .tag 0 0 0, hf => exact absurd rfl hf
  | .tag (a+1) sh n, _ | .tag 0 (sh+1) n, _ | .tag 0 0 (n+1), _
  | .varintVal fn dt a sh n, _ | .fixedVal fn dt ne a g, _
  | .delimLen fn dk a sh n, _ | .strBody fn r, _ | .skipBytes r, _
  | .skipVarint n, _ | .skipFixed r, _ | .packed fn dt r el, _ =>
    simp only [Option.isSome_none, Bool.false_eq_true, if_false]
    match st, h with
    | [], _ => rfl
    | ⟨.top, o, k⟩ :: t, _ => rfl
    | ⟨.group g, o, k⟩ :: t, _ => rfl
    | ⟨.sub g (r' + 1), o, k⟩ :: t, _ => rfl
    | ⟨.sub g 0, o, k⟩ :: t, h => simp [headSub0] at h

/-! ## Running the decoder over an encoded varint -/

/-- Post-processing of one byte: a fatal error stops the parse, otherwise
frame exits settle. -/
def errOrSettle (s : DState) : DState := if s.err.isSome then s else settle s

theorem step_eq (sch : Schema) (st : List Frame) (ps : PState)
    (evs : List Event) (b : Nat) :
    step sch ⟨st, ps, evs, none⟩ b =
      errOrSettle (stepByte sch ⟨tickStack st, ps, evs, none⟩ (b % 256)) := rfl

theorem vencF_len_pos (fuel x : Nat) (h : 0 < fuel) :
    0 < (vencF fuel x).length := by
  match fuel with
  | f + 1 =>
    rw [vencF]
    by_cases h128 : x < 128 <;> simp [h128]

theorem headSafe_tick (st : List Frame) (k : Nat) (h : headSafe st (k + 1)) :
    headSafe (tickStack st) k := by
  match st with
  | [] => trivial
  | ⟨.top, o, sk⟩ :: t => trivial
  | ⟨.group g, o, sk⟩ :: t => trivial
  | ⟨.sub g r, o, sk⟩ :: t =>
    simp only [headSafe, tickStack, List.map, tickFrame] at h ⊢
    omega

theorem headSub0_of_safe (st : List Frame) (k : Nat) (h : headSafe st k)
    (hk : 0 < k) : headSub0 st = false := by
  match st with
  | [] => rfl
  | ⟨.top, o, sk⟩ :: t => rfl
  | ⟨.group g, o, sk⟩ :: t => rfl
  | ⟨.sub g r, o, sk⟩ :: t =>
    simp only [headSafe] at h
    simp only [headSub0]
    match r, h with
    | r + 1, _ => rfl
    | 0, h => omega

theorem vstep_done (acc shift n x : Nat) (hx : x < 128)
    (hv : acc + x * 2 ^ shift < 2 ^ 64) :
    vstep acc shift n x = .done (acc + x * 2 ^ shift) := by
  simp only [vstep, Nat.mod_eq_of_lt hx, if_pos hx, if_pos hv]

theorem vstep_more (acc shift n c : Nat) (hc : c < 128) (hn : n + 1 < 10) :
    vstep acc shift n (c + 128) = .more (acc + c * 2 ^ shift) (shift + 7) (n + 1) := by
  have h1 : ¬ (c + 128 < 128) := by omega
  have h2 : (c + 128) % 128 = c := by omega
  have h3 : ¬ (n + 1 ≥ 10) := by omega
  simp [vstep, h1, h2, h3]

theorem vacc_step (acc shift x : Nat) :
    acc + x % 128 * 2 ^ shift + x / 128 * 2 ^ (shift + 7) = acc + x * 2 ^ shift := by
  have h : x % 128 + 128 * (x / 128) = x := Nat.mod_add_div x 128
  have h7 : (2:Nat) ^ (shift + 7) = 2 ^ shift * 128 := by
    rw [pow_add]; norm_num
  calc acc + x % 128 * 2 ^ shift + x / 128 * 2 ^ (shift + 7)
      = acc + (x % 128 + 128 * (x / 128)) * 2 ^ shift := by rw [h7]; ring
    _ = acc + x * 2 ^ shift := by rw [h]

/-- Running the decoder over the varint encoding of `x` while a varint
accumulator is in progress: the bytes are absorbed one by one and the
completed value is `acc + x * 2^shift`, handed to the flavour-specific
completion `fin`. -/
theorem run_vaccum (sch : Schema) (mkps : Nat → Nat → Nat → PState)
    (fin : List Frame → List Event → Nat → DState)
    (hmk : ∀ a sh n, mkps a sh (n + 1) ≠ freshTag)
    (hnorm : ∀ st evs a sh n,
      normPs ⟨st, mkps a sh n, evs, none⟩ = ⟨st, mkps a sh n, evs, none⟩)
    (hstep : ∀ st evs a sh n b, stepByte sch ⟨st, mkps a sh n, evs, none⟩ b =
      (match vstep a sh n b with
       | .more a' sh' n' => ⟨st, mkps a' sh' n', evs, none⟩
       | .bad => ⟨st, mkps a sh n, evs, some .badVarint⟩
       | .done v => fin st evs v)) :
    ∀ (fuel x : Nat), 0 < fuel → x < 128 ^ fuel →
    ∀ (st : List Frame) (evs : List Event) (acc shift n : Nat),
      n + (vencF fuel x).length ≤ 10 →
      acc + x * 2 ^ shift < 2 ^ 64 →
      headSafe st (vencF fuel x).length →
      putBytes sch ⟨st, mkps acc shift n, evs, none⟩ (vencF fuel x) =
        errOrSettle (fin (tickN (vencF fuel x).length st) evs
          (acc + x * 2 ^ shift)) := by
  intro fuel
  induction fuel with
  | zero => intro x h0; omega
  | succ fuel ih =>
    intro x _ hx st evs acc shift n hlen hval hsafe
    by_cases h128 : x < 128
    · have hv : vencF (fuel + 1) x = [x] := by rw [vencF]; simp [h128]
      rw [hv] at hsafe ⊢
      rw [show putBytes sch (⟨st, mkps acc shift n, evs, none⟩ : DState) [x] =
            step sch ⟨st, mkps acc shift n, evs, none⟩ x from rfl]
      rw [step_eq, Nat.mod_eq_of_lt (by omega : x < 256), hstep,
          vstep_done acc shift n x h128 hval]
      rfl
    · have hv : vencF (fuel + 1) x = (x % 128 + 128) :: vencF fuel (x / 128) := by
        rw [vencF]; simp [h128]
      have hfuel : 0 < fuel := by
        rcases Nat.eq_zero_or_pos fuel with h | h
        · subst h; simp at hx; omega
        · exact h
      have hlp : 0 < (vencF fuel (x / 128)).length := vencF_len_pos _ _ hfuel
      rw [hv] at hlen hsafe ⊢
      simp only [List.length_cons] at hlen hsafe
      rw [putBytes_cons, step_eq,
          Nat.mod_eq_of_lt (by omega : x % 128 + 128 < 256), hstep,
          vstep_more acc shift n (x % 128) (Nat.mod_lt x (by omega)) (by omega)]
      have hsafe' : headSafe (tickStack st) (vencF fuel (x / 128)).length := by
        have := headSafe_tick st (vencF fuel (x / 128)).length
        apply this
        simpa [Nat.add_comm] using hsafe
      rw [show errOrSettle ⟨tickStack st,
            mkps (acc + x % 128 * 2 ^ shift) (shift + 7) (n + 1), evs, none⟩ =
          ⟨tickStack st,
            mkps (acc + x % 128 * 2 ^ shift) (shift + 7) (n + 1), evs, none⟩ by
        simp only [errOrSettle, Option.isSome_none, Bool.false_eq_true, if_false]
        exact settle_mid _ _ _
          (headSub0_of_safe _ _ hsafe' hlp) (hnorm _ _ _ _ _) (hmk _ _ _)]
      have hx' : x / 128 < 128 ^ fuel := by
        rw [Nat.div_lt_iff_lt_mul (by omega : 0 < 128)]
        calc x < 128 ^ (fuel + 1) := hx
          _ = 128 ^ fuel * 128 := by rw [pow_succ]
      have hval' : acc + x % 128 * 2 ^ shift + x / 128 * 2 ^ (shift + 7) < 2 ^ 64 := by
        rw [vacc_step]; exact hval
      rw [ih (x / 128) hfuel hx' (tickStack st) evs
            (acc + x % 128 * 2 ^ shift) (shift + 7) (n + 1)
            (by omega) hval' hsafe']
      rw [vacc_step]
      rfl

theorem vencF_length_le (fuel x : Nat) : (vencF fuel x).length ≤ fuel := by
  induction fuel generalizing x with
  | zero => simp [vencF]
  | succ fuel ih =>
    rw [vencF]
    by_cases h128 : x < 128
    · simp [h128]
    · simp only [h128, if_false, List.length_cons]
      exact Nat.succ_le_succ (ih (x / 128))

/-- Running the decoder over an encoded varint while expecting a tag. -/
theorem run_tagPs (sch : Schema) (fuel x : Nat) (hf : 0 < fuel)
    (hx : x < 128 ^ fuel) (st : List Frame) (evs : List Event)
    (acc shift n : Nat) (hlen : n + (vencF fuel x).length ≤ 10)
    (hval : acc + x * 2 ^ shift < 2 ^ 64)
    (hsafe : headSafe st (vencF fuel x).length) :
    putBytes sch ⟨st, .tag acc shift n, evs, none⟩ (vencF fuel x) =
      errOrSettle (dispatchTag sch
        ⟨tickN (vencF fuel x).length st, freshTag, evs, none⟩
        (acc + x * 2 ^ shift)) := by
  exact run_vaccum sch (fun a sh m => .tag a sh m)
    (fun st' evs' v => dispatchTag sch ⟨st', freshTag, evs', none⟩ v)
    (by intro a sh m; simp [freshTag])
    (by intro st' evs' a sh m; rfl)
    (by intro st' evs' a sh m b; rfl)
    fuel x hf hx st evs acc shift n hlen hval hsafe

/-- Running the decoder over an encoded varint while inside a value
varint: the typed value handler fires with the converted value. -/
theorem run_valPs (sch : Schema) (fuel x : Nat) (hf : 0 < fuel)
    (hx : x < 128 ^ fuel) (st : List Frame) (evs : List Event)
    (fn : Nat) (dt : DescType) (acc shift n : Nat)
    (hlen : n + (vencF fuel x).length ≤ 10)
    (hval : acc + x * 2 ^ shift < 2 ^ 64)
    (hsafe : headSafe st (vencF fuel x).length) :
    putBytes sch ⟨st, .varintVal fn dt acc shift n, evs, none⟩ (vencF fuel x) =
      errOrSettle ⟨tickN (vencF fuel x).length st, freshTag,
        evs ++ [.value fn (convert dt (acc + x * 2 ^ shift))], none⟩ := by
  exact run_vaccum sch (fun a sh m => .varintVal fn dt a sh m)
    (fun st' evs' v => ⟨st', freshTag, evs' ++ [.value fn (convert dt v)], none⟩)
    (by intro a sh m; simp [freshTag])
    (by intro st' evs' a sh m; rfl)
    (by intro st' evs' a sh m b; rfl)
    fuel x hf hx st evs acc shift n hlen hval hsafe

/-- Running the decoder over an encoded varint while inside a delimited
length header. -/
theorem run_lenPs (sch : Schema) (fuel x : Nat) (hf : 0 < fuel)
    (hx : x < 128 ^ fuel) (st : List Frame) (evs : List Event)
    (fn : Nat) (dk : DelimKind) (acc shift n : Nat)
    (hlen : n + (vencF fuel x).length ≤ 10)
    (hval : acc + x * 2 ^ shift < 2 ^ 64)
    (hsafe : headSafe st (vencF fuel x).length) :
    putBytes sch ⟨st, .delimLen fn dk acc shift n, evs, none⟩ (vencF fuel x) =
      errOrSettle (dispatchDelim
        ⟨tickN (vencF fuel x).length st, freshTag, evs, none⟩
        fn dk (acc + x * 2 ^ shift)) := by
  exact run_vaccum sch (fun a sh m => .delimLen fn dk a sh m)
    (fun st' evs' v => dispatchDelim ⟨st', freshTag, evs', none⟩ fn dk v)
    (by intro a sh m; simp [freshTag])
    (by intro st' evs' a sh m; rfl)
    (by intro st' evs' a sh m b; rfl)
    fuel x hf hx st evs acc shift n hlen hval hsafe

theorem lt_128_pow_10 (x : Nat) (hx : x < 2 ^ 64) : x < 128 ^ 10 := by
  calc x < 2 ^ 64 := hx
    _ ≤ 128 ^ 10 := by norm_num

/-- Running a complete tag varint from the fresh state. -/
theorem run_tag (sch : Schema) (x : Nat) (hx : x < 2 ^ 64)
    (st : List Frame) (evs : List Event)
    (hsafe : headSafe st (venc x).length) :
    putBytes sch ⟨st, freshTag, evs, none⟩ (venc x) =
      errOrSettle (dispatchTag sch
        ⟨tickN (venc x).length st, freshTag, evs, none⟩ x) := by
  have h := run_tagPs sch 10 x (by omega) (lt_128_pow_10 x hx) st evs 0 0 0
    (by have := vencF_length_le 10 x; simpa [venc] using this)
    (by simpa using hx)
    (by simpa [venc] using hsafe)
  simpa [venc, freshTag] using h

/-- Running a complete value varint. -/
theorem run_val (sch : Schema) (x : Nat) (hx : x < 2 ^ 64)
    (st : List Frame) (evs : List Event) (fn : Nat) (dt : DescType)
    (hsafe : headSafe st (venc x).length) :
    putBytes sch ⟨st, .varintVal fn dt 0 0 0, evs, none⟩ (venc x) =
      errOrSettle ⟨tickN (venc x).length st, freshTag,
        evs ++ [.value fn (convert dt x)], none⟩ := by
  have h := run_valPs sch 10 x (by omega) (lt_128_pow_10 x hx) st evs fn dt 0 0 0
    (by have := vencF_length_le 10 x; simpa [venc] using this)
    (by simpa using hx)
    (by simpa [venc] using hsafe)
  simpa [venc] using h

/-- Running a complete delimited length varint. -/
theorem run_len (sch : Schema) (x : Nat) (hx : x < 2 ^ 64)
    (st : List Frame) (evs : List Event) (fn : Nat) (dk : DelimKind)
    (hsafe : headSafe st (venc x).length) :
    putBytes sch ⟨st, .delimLen fn dk 0 0 0, evs, none⟩ (venc x) =
      errOrSettle (dispatchDelim
        ⟨tickN (venc x).length st, freshTag, evs, none⟩ fn dk x) := by
  have h := run_lenPs sch 10 x (by omega) (lt_128_pow_10 x hx) st evs fn dk 0 0 0
    (by have := vencF_length_le 10 x; simpa [venc] using this)
    (by simpa using hx)
    (by simpa [venc] using hsafe)
  simpa [venc] using h

/-! ## Zig-zag decoding -/

theorem xor_ones (w m : Nat) (h : m < 2 ^ w) :
    m ^^^ (2 ^ w - 1) = 2 ^ w - 1 - m := by
  apply Nat.eq_of_testBit_eq
  intro i
  rw [Nat.testBit_xor, Nat.testBit_two_pow_sub_one,
      show 2 ^ w - 1 - m = 2 ^ w - (m + 1) by omega,
      Nat.testBit_two_pow_sub_succ h]
  by_cases hi : i < w
  · simp [hi]
  · have hm : m.testBit i = false :=
      Nat.testBit_lt_two_pow
        (lt_of_lt_of_le h (Nat.pow_le_pow_right (by omega) (le_of_not_lt hi)))
    simp [hi, hm]

theorem zzdec32_zzenc32 (v : Int) (h1 : -(2 ^ 31) ≤ v) (h2 : v < 2 ^ 31) :
    zzdec32 (zzenc32 v) = v := by
  by_cases hv : 0 ≤ v
  · have hu : zzenc32 v = 2 * v.toNat := by simp [zzenc32, hv]
    have hand : (2 * v.toNat) &&& 1 = 0 := by
      rw [Nat.and_one_is_mod]; omega
    have hshift : (2 * v.toNat) >>> 1 = v.toNat := by
      rw [Nat.shiftRight_one]; omega
    have hlt : v.toNat < 2 ^ 31 := by omega
    simp only [zzdec32, hu, hand, Nat.sub_zero, Nat.mod_self, Nat.xor_zero,
      hshift, toS32]
    rw [if_pos hlt]
    omega
  · push_neg at hv
    set m : Nat := (-v).toNat - 1 with hm
    have hv1 : (1:Int) ≤ -v := by omega
    have hmv : ((-v).toNat : Int) = -v := Int.toNat_of_nonneg (by omega)
    have hmlt : m < 2 ^ 31 := by omega
    have hu : zzenc32 v = 2 * m + 1 := by
      simp only [zzenc32, if_neg (by omega : ¬ 0 ≤ v)]
      omega
    have hand : (2 * m + 1) &&& 1 = 1 := by
      rw [Nat.and_one_is_mod]; omega
    have hshift : (2 * m + 1) >>> 1 = m := by
      rw [Nat.shiftRight_one]; omega
    have hmod : (2 ^ 32 - 1) % 2 ^ 32 = 2 ^ 32 - 1 := by norm_num
    have hxor : m ^^^ (2 ^ 32 - 1) = 2 ^ 32 - 1 - m :=
      xor_ones 32 m (by omega)
    simp only [zzdec32, hu, hand, hshift, hmod, hxor, toS32]
    rw [if_neg (by omega : ¬ (2 ^ 32 - 1 - m < 2 ^ 31))]
    omega

theorem zzdec64_zzenc64 (v : Int) (h1 : -(2 ^ 63) ≤ v) (h2 : v < 2 ^ 63) :
    zzdec64 (zzenc64 v) = v := by
  by_cases hv : 0 ≤ v
  · have hu : zzenc64 v = 2 * v.toNat := by simp [zzenc64, hv]
    have hand : (2 * v.toNat) &&& 1 = 0 := by
      rw [Nat.and_one_is_mod]; omega
    have hshift : (2 * v.toNat) >>> 1 = v.toNat := by
      rw [Nat.shiftRight_one]; omega
    have hlt : v.toNat < 2 ^ 63 := by omega
    simp only [zzdec64, hu, hand, Nat.sub_zero, Nat.mod_self, Nat.xor_zero,
      hshift, toS64]
    rw [if_pos hlt]
    omega
  · push_neg at hv
    set m : Nat := (-v).toNat - 1 with hm
    have hmv : ((-v).toNat : Int) = -v := Int.toNat_of_nonneg (by omega)
    have hmlt : m < 2 ^ 63 := by omega
    have hu : zzenc64 v = 2 * m + 1 := by
      simp only [zzenc64, if_neg (by omega : ¬ 0 ≤ v)]
      omega
    have hand : (2 * m + 1) &&& 1 = 1 := by
      rw [Nat.and_one_is_mod]; omega
    have hshift : (2 * m + 1) >>> 1 = m := by
      rw [Nat.shiftRight_one]; omega
    have hmod : (2 ^ 64 - 1) % 2 ^ 64 = 2 ^ 64 - 1 := by norm_num
    have hxor : m ^^^ (2 ^ 64 - 1) = 2 ^ 64 - 1 - m :=
      xor_ones 64 m (by omega)
    simp only [zzdec64, hu, hand, hshift, hmod, hxor, toS64]
    rw [if_neg (by omega : ¬ (2 ^ 64 - 1 - m < 2 ^ 63))]
    omega

theorem zzenc32_lt (v : Int) (h1 : -(2 ^ 31) ≤ v) (h2 : v < 2 ^ 31) :
    zzenc32 v < 2 ^ 32 := by
  by_cases hv : 0 ≤ v <;> simp only [zzenc32, hv, if_true, if_false] <;> omega

theorem zzenc64_lt (v : Int) (h1 : -(2 ^ 63) ≤ v) (h2 : v < 2 ^ 63) :
    zzenc64 v < 2 ^ 64 := by
  by_cases hv : 0 ≤ v <;> simp only [zzenc64, hv, if_true, if_false] <;> omega

/-! ## Helpers for end-to-end decodes -/

/-- The top-level frame. -/
def topF : Frame := ⟨.top, none, false⟩

theorem tickN_top (k : Nat) (o : Option Nat) (sk : Bool) :
    tickN k [⟨.top, o, sk⟩] = [⟨.top, o, sk⟩] := by
  induction k with
  | zero => rfl
  | succ k ih => rw [tickN, show tickStack [⟨.top, o, sk⟩] = [⟨.top, o, sk⟩] from rfl, ih]

theorem tickN_topF (k : Nat) : tickN k [topF] = [topF] := tickN_top k none false

theorem errOrSettle_none (s : DState) (h : s.err = none) :
    errOrSettle s = settle s := by simp [errOrSettle, h]

theorem errOrSettle_err (s : DState) (e : DErr) (h : s.err = some e) :
    errOrSettle s = s := by simp [errOrSettle, h]

theorem decodeTop_ok (sch : Schema) (bs : List Nat) (o : Option Nat) (sk : Bool)
    (evs : List Event)
    (h : putBytes sch dInit bs = ⟨[⟨.top, o, sk⟩], freshTag, evs, none⟩) :
    decodeTop sch bs = .ok (evs ++ closeSeqEvs o ++ [.endMsg]) := by
  simp only [decodeTop, h, dFinish, freshTag]
  rfl

theorem dispatchTag_badfn (sch : Schema) (st : List Frame) (evs : List Event)
    (v : Nat) (h : v / 8 = 0 ∨ MAX_FIELDNUMBER < v / 8) :
    dispatchTag sch ⟨st, freshTag, evs, none⟩ v =
      ⟨st, freshTag, evs, some .badFieldNumber⟩ := by
  rcases h with h | h <;> simp [dispatchTag, h, setErr]

/-! ## C1: buffer-boundary invariance -/

/-- C1: for every byte stream and every partition of it into chunks,
pushing the chunks into the decoder sequentially produces exactly the
same handler event trace (and error result) as decoding the whole stream
in a single buffer: buffer boundaries at any byte offset do not change
the observable events. -/
theorem C1_chunk_invariance (sch : Schema) (chunks : List (List Nat)) :
    decodeChunks sch chunks = decodeTop sch chunks.flatten := by
  simp only [decodeChunks, decodeTop, putChunks_eq_join]

/-! ## C3: zig-zag decoding -/

theorem sint32_tag_dispatch (evs : List Event) :
    dispatchTag testSchema ⟨[topF], freshTag, evs, none⟩ (17 * 8) =
      ⟨[topF], .varintVal 17 .sint32 0 0 0, evs, none⟩ := rfl

theorem sint64_tag_dispatch (evs : List Event) :
    dispatchTag testSchema ⟨[topF], freshTag, evs, none⟩ (18 * 8) =
      ⟨[topF], .varintVal 18 .sint64 0 0 0, evs, none⟩ := rfl

theorem sint_decode (v : Int) (fn : Nat) (dt : DescType) (x : Nat)
    (hx : x < 2 ^ 64)
    (htag : dispatchTag testSchema ⟨[topF], freshTag, [.startMsg], none⟩ (fn * 8) =
      ⟨[topF], .varintVal fn dt 0 0 0, [.startMsg], none⟩)
    (hconv : convert dt x = .i v)
    (htagv : fn * 8 < 2 ^ 64) :
    decodeTop testSchema (venc (fn * 8) ++ venc x) =
      .ok [.startMsg, .value fn (.i v), .endMsg] := by
  have h1 : putBytes testSchema dInit (venc (fn * 8)) =
      ⟨[topF], .varintVal fn dt 0 0 0, [.startMsg], none⟩ := by
    have h := run_tag testSchema (fn * 8) htagv [topF] [.startMsg] trivial
    rw [show dInit = ⟨[topF], freshTag, [.startMsg], none⟩ from rfl, h,
        tickN_topF, htag]
    rw [errOrSettle_none _ rfl]
    exact settle_mid _ _ _ rfl rfl (by simp [freshTag])
  have h2 : putBytes testSchema dInit (venc (fn * 8) ++ venc x) =
      ⟨[topF], freshTag, [.startMsg, .value fn (.i v)], none⟩ := by
    rw [putBytes_append, h1,
        run_val testSchema x hx [topF] [.startMsg] fn dt trivial,
        tickN_topF, hconv, errOrSettle_none _ rfl,
        settle_fresh [topF] ([Event.startMsg] ++ [Event.value fn (DVal.i v)]) rfl]
    rfl
  have := decodeTop_ok testSchema (venc (fn * 8) ++ venc x) none false
    [.startMsg, .value fn (.i v)] h2
  simpa [closeSeqEvs] using this

/-- C3: for every varint-encoded value of a field whose integer format is
ZigZag, the decoder applies zig-zag decoding ((n>>1)^-(n&1)) at the
field's declared width before invoking the value handler: for the SINT32
field (number 17) the wire varint `zzenc32 v` decodes to the handler
value `v` for every 32-bit signed `v`, and likewise at width 64 for the
SINT64 field (number 18); in particular the wire value varint(131) on the
SINT32 field delivers -66 to the handler, since zzenc32 (-66) = 131. -/
theorem C3_zigzag_decode :
    (∀ v : Int, -(2 ^ 31) ≤ v → v < 2 ^ 31 →
      decodeTop testSchema (venc (17 * 8) ++ venc (zzenc32 v)) =
        .ok [.startMsg, .value 17 (.i v), .endMsg]) ∧
    (∀ v : Int, -(2 ^ 63) ≤ v → v < 2 ^ 63 →
      decodeTop testSchema (venc (18 * 8) ++ venc (zzenc64 v)) =
        .ok [.startMsg, .value 18 (.i v), .endMsg]) ∧
    zzenc32 (-66) = 131 := by
  refine ⟨fun v h1 h2 => ?_, fun v h1 h2 => ?_, rfl⟩
  · have hlt := zzenc32_lt v h1 h2
    refine sint_decode v 17 .sint32 (zzenc32 v) (by omega)
      (sint32_tag_dispatch _) ?_ (by norm_num)
    show DVal.i (zzdec32 (zzenc32 v % 2 ^ 32)) = DVal.i v
    rw [Nat.mod_eq_of_lt hlt, zzdec32_zzenc32 v h1 h2]
  · have hlt := zzenc64_lt v h1 h2
    refine sint_decode v 18 .sint64 (zzenc64 v) hlt
      (sint64_tag_dispatch _) ?_ (by norm_num)
    show DVal.i (zzdec64 (zzenc64 v)) = DVal.i v
    rw [zzdec64_zzenc64 v h1 h2]

/-- Witness for C3: the SINT32 field with wire value varint(131) invokes
the int32 value handler with -66. -/
theorem C3_zigzag_decode_witness :
    decodeTop testSchema (venc (17 * 8) ++ venc 131) =
      .ok [.startMsg, .value 17 (.i (-66)), .endMsg] := by
  have h := C3_zigzag_decode.1 (-66) (by norm_num) (by norm_num)
  rwa [show zzenc32 (-66) = 131 from rfl] at h

/-! ## C5: field number validation -/

/-- C5: on reading any tag the decoder validates that the field number
lies in [1, MAX_FIELDNUMBER] and fails with BadFieldNumber otherwise
(whatever bytes follow the tag); in particular the input `00 00` (field
number 0) and a tag carrying field number MAX_FIELDNUMBER + 1 do not
parse. -/
theorem C5_field_number_validation :
    (∀ (fn wt : Nat) (rest : List Nat),
      (fn = 0 ∨ MAX_FIELDNUMBER < fn) → wt < 8 → fn < 2 ^ 60 →
      decodeTop testSchema (venc (fn * 8 + wt) ++ rest) =
        .error .badFieldNumber) ∧
    decodeTop testSchema [0, 0] = .error .badFieldNumber ∧
    decodeTop testSchema (venc ((MAX_FIELDNUMBER + 1) * 8 + 2) ++ venc 0) =
      .error .badFieldNumber := by
  refine ⟨fun fn wt rest h hwt hfn => ?_, rfl, rfl⟩
  have hdiv : (fn * 8 + wt) / 8 = fn := by omega
  have hlt : fn * 8 + wt < 2 ^ 64 := by
    have : (2:Nat) ^ 60 * 8 + 8 ≤ 2 ^ 64 := by norm_num
    omega
  apply decodeTop_of_err
  rw [putBytes_append,
      show dInit = ⟨[topF], freshTag, [.startMsg], none⟩ from rfl,
      run_tag testSchema (fn * 8 + wt) hlt [topF] [.startMsg] trivial,
      tickN_topF, dispatchTag_badfn testSchema _ _ _ (by rw [hdiv]; exact h),
      errOrSettle_err _ .badFieldNumber rfl,
      putBytes_of_err _ _ _ (by simp)]

/-- Witness for C5: field number 0 with wire type 0 and one following
byte is rejected with BadFieldNumber. -/
theorem C5_field_number_validation_witness :
    decodeTop testSchema (venc (0 * 8 + 0) ++ [0]) = .error .badFieldNumber :=
  C5_field_number_validation.1 0 0 [0] (Or.inl rfl) (by omega) (by norm_num)

/-! ## C2: implicit sequence framing for repeated fields -/

/-- The repeated INT32 field of the test schema. -/
def repIntFn : Nat := rep_fn 5

/-- One non-packed element of the repeated INT32 field: its tag followed
by the varint 33 (as built by `tag(rep_fieldnum, wire_type), enc33` in
tests/test_decoder.cc). -/
def repBlock : List Nat := venc (repIntFn * 8) ++ venc 33

/-- A run of `n` consecutive non-packed elements of the repeated INT32
field. -/
def repRun : Nat → List Nat
  | 0 => []
  | n + 1 => repBlock ++ repRun n

/-- A packed block for the repeated INT32 field holding `n` copies of the
element 33 (one byte each). -/
def packedInput (n : Nat) : List Nat :=
  venc (repIntFn * 8 + 2) ++ venc n ++ List.replicate n 33

/-- Two runs of different repeated fields back to back: the repeated
FLOAT field with 33.0f, then the repeated DOUBLE field with 66.0 (the
implicit startseq/endseq test of tests/test_decoder.cc lines 701-714). -/
def seqChangeInput : List Nat :=
  venc (rep_fn 2 * 8 + 5) ++ [0, 0, 4, 66] ++
    venc (rep_fn 1 * 8 + 1) ++ [0, 0, 0, 0, 0, 0, 80, 64]

theorem rep_tag_first (evs : List Event) :
    dispatchTag testSchema ⟨[topF], freshTag, evs, none⟩ (repIntFn * 8) =
      ⟨[⟨.top, some repIntFn, false⟩], .varintVal repIntFn .int32 0 0 0,
        evs ++ [.startSeq repIntFn], none⟩ := rfl

theorem rep_tag_next (evs : List Event) :
    dispatchTag testSchema
        ⟨[⟨.top, some repIntFn, false⟩], freshTag, evs, none⟩ (repIntFn * 8) =
      ⟨[⟨.top, some repIntFn, false⟩], .varintVal repIntFn .int32 0 0 0,
        evs, none⟩ := rfl

theorem repBlock_step (evs : List Event) :
    putBytes testSchema
        ⟨[⟨.top, some repIntFn, false⟩], freshTag, evs, none⟩ repBlock =
      ⟨[⟨.top, some repIntFn, false⟩], freshTag,
        evs ++ [.value repIntFn (.i 33)], none⟩ := by
  rw [repBlock, putBytes_append,
      run_tag testSchema (repIntFn * 8) (by norm_num [repIntFn, rep_fn, MAX_FIELDNUMBER])
        [⟨.top, some repIntFn, false⟩] evs trivial,
      tickN_top, rep_tag_next, errOrSettle_none _ rfl,
      settle_mid [⟨.top, some repIntFn, false⟩]
        (.varintVal repIntFn .int32 0 0 0) evs rfl rfl (by simp [freshTag]),
      run_val testSchema 33 (by norm_num)
        [⟨.top, some repIntFn, false⟩] evs repIntFn .int32 trivial,
      tickN_top,
      show convert .int32 33 = .i 33 from rfl,
      errOrSettle_none _ rfl,
      settle_fresh [⟨.top, some repIntFn, false⟩]
        (evs ++ [Event.value repIntFn (DVal.i 33)]) rfl]

theorem repRun_loop (n : Nat) (evs : List Event) :
    putBytes testSchema
        ⟨[⟨.top, some repIntFn, false⟩], freshTag, evs, none⟩ (repRun n) =
      ⟨[⟨.top, some repIntFn, false⟩], freshTag,
        evs ++ List.replicate n (.value repIntFn (.i 33)), none⟩ := by
  induction n generalizing evs with
  | zero => simp [repRun, putBytes_nil]
  | succ n ih =>
    rw [repRun, putBytes_append, repBlock_step, ih]
    simp [List.replicate_succ]

theorem pelem_int32_33 : pstepElem .int32 none 33 = .done 33 := rfl

theorem packed_loop (n : Nat) (hn : 1 ≤ n) (evs : List Event) :
    putBytes testSchema
        ⟨[topF], .packed repIntFn .int32 n none, evs, none⟩
        (List.replicate n 33) =
      ⟨[topF], freshTag,
        evs ++ List.replicate n (.value repIntFn (.i 33)) ++
          [.endSeq repIntFn], none⟩ := by
  induction n generalizing evs with
  | zero => omega
  | succ m ih =>
    match m, ih with
    | 0, _ =>
      rw [show List.replicate 1 (33:Nat) = [33] from rfl,
          show putBytes testSchema
            (⟨[topF], .packed repIntFn .int32 1 none, evs, none⟩ : DState) [33] =
            step testSchema
              ⟨[topF], .packed repIntFn .int32 1 none, evs, none⟩ 33 from rfl,
          step_eq]
      simp only [show (33:Nat) % 256 = 33 from rfl]
      rfl
    | k + 1, ih =>
      rw [show List.replicate (k + 2) (33:Nat) = 33 :: List.replicate (k + 1) 33
            from rfl,
          putBytes_cons, step_eq,
          show (33:Nat) % 256 = 33 from rfl,
          show stepByte testSchema
              ⟨tickStack [topF], .packed repIntFn .int32 (k + 2) none, evs, none⟩ 33 =
            ⟨[topF], .packed repIntFn .int32 (k + 1) none,
              evs ++ [.value repIntFn (.i 33)], none⟩ from rfl,
          errOrSettle_none _ rfl,
          settle_mid [topF] (.packed repIntFn .int32 (k + 1) none)
            (evs ++ [Event.value repIntFn (DVal.i 33)]) rfl rfl
            (by simp [freshTag]),
          ih (by omega)]
      simp [List.replicate_succ, List.append_assoc]

theorem packed_tag_dispatch (evs : List Event) :
    dispatchTag testSchema ⟨[topF], freshTag, evs, none⟩ (repIntFn * 8 + 2) =
      ⟨[topF], .delimLen repIntFn (.packedK .int32) 0 0 0,
        evs ++ [.startSeq repIntFn], none⟩ := rfl

theorem packed_header (n : Nat) (hn : n < 2 ^ 64) (evs : List Event) :
    putBytes testSchema ⟨[topF], freshTag, evs, none⟩
        (venc (repIntFn * 8 + 2) ++ venc n) =
      errOrSettle ⟨[topF], .packed repIntFn .int32 n none,
        evs ++ [.startSeq repIntFn], none⟩ := by
  rw [putBytes_append,
      run_tag testSchema (repIntFn * 8 + 2)
        (by norm_num [repIntFn, rep_fn, MAX_FIELDNUMBER]) [topF] evs trivial,
      tickN_topF, packed_tag_dispatch, errOrSettle_none _ rfl,
      settle_mid [topF] (.delimLen repIntFn (.packedK .int32) 0 0 0)
        (evs ++ [Event.startSeq repIntFn]) rfl rfl (by simp [freshTag]),
      run_len testSchema n hn [topF] (evs ++ [Event.startSeq repIntFn])
        repIntFn (.packedK .int32) trivial,
      tickN_topF]
  rfl

/-- C2: for the repeated INT32 field of the test schema, a run of n ≥ 1
same-numbered non-packed values produces the trace StartSequence,
Value×n, EndSequence (inside the message's Start/End events, the
EndSequence fired implicitly when the enclosing frame ends); a packed
block containing n elements produces exactly one StartSequence, n Value
events, and exactly one EndSequence; and when a run of one repeated
field is followed by a run of a different repeated field, the first
sequence is closed implicitly before the second opens. -/
theorem C2_sequence_framing :
    (∀ n : Nat, 1 ≤ n →
      decodeTop testSchema (repRun n) =
        .ok ([.startMsg, .startSeq repIntFn] ++
          List.replicate n (.value repIntFn (.i 33)) ++
          [.endSeq repIntFn, .endMsg])) ∧
    (∀ n : Nat, n < 2 ^ 64 →
      decodeTop testSchema (packedInput n) =
        .ok ([.startMsg, .startSeq repIntFn] ++
          List.replicate n (.value repIntFn (.i 33)) ++
          [.endSeq repIntFn, .endMsg])) ∧
    decodeTop testSchema seqChangeInput =
      .ok [.startMsg, .startSeq (rep_fn 2), .value (rep_fn 2) (.f32 1107558400),
        .endSeq (rep_fn 2), .startSeq (rep_fn 1), .value (rep_fn 1) (.f64 4634204016564240384),
        .endSeq (rep_fn 1), .endMsg] := by
  refine ⟨fun n hn => ?_, fun n hn => ?_, rfl⟩
  · match n, hn with
    | m + 1, _ =>
      have hfirst : putBytes testSchema dInit repBlock =
          ⟨[⟨.top, some repIntFn, false⟩], freshTag,
            [.startMsg, .startSeq repIntFn, .value repIntFn (.i 33)], none⟩ := by
        rw [show dInit = ⟨[topF], freshTag, [.startMsg], none⟩ from rfl,
            repBlock, putBytes_append,
            run_tag testSchema (repIntFn * 8)
              (by norm_num [repIntFn, rep_fn, MAX_FIELDNUMBER])
              [topF] [.startMsg] trivial,
            tickN_topF, rep_tag_first, errOrSettle_none _ rfl,
            settle_mid [⟨.top, some repIntFn, false⟩]
              (.varintVal repIntFn .int32 0 0 0)
              ([Event.startMsg] ++ [Event.startSeq repIntFn]) rfl rfl
              (by simp [freshTag]),
            run_val testSchema 33 (by norm_num)
              [⟨.top, some repIntFn, false⟩]
              ([Event.startMsg] ++ [Event.startSeq repIntFn]) repIntFn .int32 trivial,
            tickN_top, show convert .int32 33 = .i 33 from rfl,
            errOrSettle_none _ rfl,
            settle_fresh [⟨.top, some repIntFn, false⟩]
              ([Event.startMsg] ++ [Event.startSeq repIntFn] ++
                [Event.value repIntFn (DVal.i 33)]) rfl]
        rfl
      have h2 : putBytes testSchema dInit (repRun (m + 1)) =
          ⟨[⟨.top, some repIntFn, false⟩], freshTag,
            [.startMsg, .startSeq repIntFn, .value repIntFn (.i 33)] ++
              List.replicate m (.value repIntFn (.i 33)), none⟩ := by
        rw [repRun, putBytes_append, hfirst, repRun_loop]
      have h3 := decodeTop_ok testSchema (repRun (m + 1)) (some repIntFn) false
        _ h2
      rw [h3]
      simp [closeSeqEvs, List.replicate_succ, List.append_assoc]
  · match n, hn with
    | 0, _ => rfl
    | m + 1, hn =>
      have h1 : putBytes testSchema dInit (packedInput (m + 1)) =
          ⟨[topF], freshTag,
            [.startMsg, .startSeq repIntFn] ++
              List.replicate (m + 1) (.value repIntFn (.i 33)) ++
              [.endSeq repIntFn], none⟩ := by
        rw [packedInput, show venc (repIntFn * 8 + 2) ++ venc (m + 1) ++
              List.replicate (m + 1) 33 =
            (venc (repIntFn * 8 + 2) ++ venc (m + 1)) ++
              List.replicate (m + 1) 33 by simp [List.append_assoc],
            putBytes_append,
            show dInit = ⟨[topF], freshTag, [.startMsg], none⟩ from rfl,
            packed_header (m + 1) hn [.startMsg],
            errOrSettle_none _ rfl,
            settle_mid [topF] (.packed repIntFn .int32 (m + 1) none)
              ([Event.startMsg] ++ [Event.startSeq repIntFn]) rfl rfl
              (by simp [freshTag]),
            packed_loop (m + 1) (by omega)]
        simp [List.append_assoc]
      have h3 := decodeTop_ok testSchema (packedInput (m + 1)) none false _ h1
      rw [h3]
      simp [closeSeqEvs, List.append_assoc]

/-- Witness for C2: a non-packed run of two elements and a packed block
of two elements each produce one StartSequence, two Values, one
EndSequence. -/
theorem C2_sequence_framing_witness :
    decodeTop testSchema (repRun 2) =
      .ok ([.startMsg, .startSeq repIntFn] ++
        List.replicate 2 (.value repIntFn (.i 33)) ++
        [.endSeq repIntFn, .endMsg]) ∧
    decodeTop testSchema (packedInput 2) =
      .ok ([.startMsg, .startSeq repIntFn] ++
        List.replicate 2 (.value repIntFn (.i 33)) ++
        [.endSeq repIntFn, .endMsg]) :=
  ⟨C2_sequence_framing.1 2 (by omega), C2_sequence_framing.2.1 2 (by norm_num)⟩

/-! ## C4: the nesting limit -/

/-- `k` nested length-delimited submessages on the MESSAGE field
(number 11), the innermost empty; this is the input family built by the
depth tests of tests/test_decoder.cc (`submsg(UPB_DESCRIPTOR_TYPE_MESSAGE,
buf)` iterated). -/
def nestedN : Nat → List Nat
  | 0 => []
  | k + 1 => venc (11 * 8 + WT_DELIMITED) ++ venc (nestedN k).length ++ nestedN k

/-- Length of the `k`-deep nested input. -/
def nestedLen (k : Nat) : Nat := (nestedN k).length

/-- The body events of the `k`-deep nested input: fully nested
StartSubMessage/StartMessage .. EndMessage/EndSubMessage pairs. -/
def nestedB : Nat → List Event
  | 0 => []
  | k + 1 => [.startSubMsg 11, .startMsg] ++ nestedB k ++ [.endMsg, .endSubMsg 11]

/-- Events emitted by popping `j` exhausted submessage frames. -/
def popsE : Nat → List Event
  | 0 => []
  | j + 1 => [.endMsg, .endSubMsg 11] ++ popsE j

/-- The whole expected trace of the `k`-deep nested input. -/
def nestedTrace (k : Nat) : List Event := [.startMsg] ++ nestedB k ++ [.endMsg]

/-- A submessage frame for field 11 with `r` bytes of budget left. -/
def msgF (r : Nat) : Frame := ⟨.sub 11 r, none, false⟩

theorem nestedLen_succ (d : Nat) :
    nestedLen (d + 1) = 1 + (venc (nestedLen d)).length + nestedLen d := by
  show (venc (11 * 8 + WT_DELIMITED) ++ venc (nestedN d).length ++ nestedN d).length = _
  rw [show venc (11 * 8 + WT_DELIMITED) = [90] from rfl]
  simp only [List.length_append, List.length_cons, List.length_nil, nestedLen]

theorem nestedLen_succ_ge_two (d : Nat) : 2 ≤ nestedLen (d + 1) := by
  have h1 := vencF_len_pos 10 (nestedLen d) (by omega)
  have h2 := nestedLen_succ d
  simp only [venc] at h2
  omega

theorem nestedLen_le (d : Nat) : nestedLen d ≤ 11 * d := by
  induction d with
  | zero => simp [nestedLen, nestedN]
  | succ d ih =>
    have h1 := vencF_length_le 10 (nestedLen d)
    have h2 := nestedLen_succ d
    simp only [venc] at h2
    omega

theorem tickN_subs (L : Nat) : ∀ (j r : Nat),
    tickN L (List.replicate j (msgF r) ++ [topF]) =
      List.replicate j (msgF (r - L)) ++ [topF] := by
  induction L with
  | zero => intro j r; simp [tickN]
  | succ L ih =>
    intro j r
    rw [tickN, show tickStack (List.replicate j (msgF r) ++ [topF]) =
          List.replicate j (msgF (r - 1)) ++ [topF] by
        simp [tickStack, List.map_append, List.map_replicate, tickFrame, msgF, topF],
      ih j (r - 1)]
    have h : r - 1 - L = r - (L + 1) := by omega
    rw [h]

theorem headSafe_subs (j r k : Nat) (h : k ≤ r) :
    headSafe (List.replicate j (msgF r) ++ [topF]) k := by
  cases j with
  | zero => trivial
  | succ j => exact h

theorem headSub0_subs (j r : Nat) (h : 0 < r) :
    headSub0 (List.replicate j (msgF r) ++ [topF]) = false := by
  cases j with
  | zero => rfl
  | succ j =>
    match r, h with
    | r + 1, _ => rfl

theorem headSub0_cons_sub (fn r : Nat) (o : Option Nat) (sk : Bool)
    (rest : List Frame) (h : 0 < r) :
    headSub0 (⟨.sub fn r, o, sk⟩ :: rest) = false := by
  match r, h with
  | r + 1, _ => rfl

theorem popFrames_subs (j : Nat) : ∀ (evs : List Event),
    popFrames (List.replicate j (msgF 0) ++ [topF]) evs =
      ([topF], evs ++ popsE j) := by
  induction j with
  | zero => intro evs; simp [popFrames, topF, popsE]
  | succ j ih =>
    intro evs
    rw [List.replicate_succ, List.cons_append,
        show popFrames (msgF 0 :: (List.replicate j (msgF 0) ++ [topF])) evs =
          popFrames (List.replicate j (msgF 0) ++ [topF])
            (evs ++ [.endMsg, .endSubMsg 11]) from rfl,
        ih]
    simp [popsE]

theorem settle_exhausted (j : Nat) (evs : List Event) :
    settle ⟨List.replicate j (msgF 0) ++ [topF], freshTag, evs, none⟩ =
      ⟨[topF], freshTag, evs ++ popsE j, none⟩ := by
  simp [settle, normPs, freshTag, popFrames_subs j evs]

theorem dispatch_msg_tag (j r : Nat) (evs : List Event) :
    dispatchTag testSchema
        ⟨List.replicate j (msgF r) ++ [topF], freshTag, evs, none⟩
        (11 * 8 + WT_DELIMITED) =
      ⟨List.replicate j (msgF r) ++ [topF], .delimLen 11 .subm 0 0 0,
        evs, none⟩ := by
  cases j <;> rfl

theorem length_subs (j : Nat) :
    (List.replicate j (msgF 0) ++ [topF]).length = j + 1 := by
  simp

theorem dispatch_subm_push (j r L : Nat) (evs : List Event)
    (hd : j + 1 < MAX_NESTING) (hfit : L ≤ r) :
    dispatchDelim
        ⟨List.replicate j (msgF r) ++ [topF], freshTag, evs, none⟩ 11 .subm L =
      ⟨msgF L :: (List.replicate j (msgF r) ++ [topF]),
        freshTag, evs ++ [.startSubMsg 11, .startMsg], none⟩ := by
  have hfits : fitsStack (List.replicate j (msgF r) ++ [topF]) L = true := by
    cases j with
    | zero => rfl
    | succ j =>
      rw [List.replicate_succ, List.cons_append,
          show fitsStack (msgF r :: (List.replicate j (msgF r) ++ [topF])) L =
            decide (L ≤ r) from rfl]
      simp [hfit]
  have hM : MAX_NESTING = 64 := rfl
  rw [hM] at hd
  simp only [dispatchDelim]
  rw [if_neg (by
        simp only [List.length_append, List.length_replicate, List.length_cons,
          List.length_nil, hM]
        omega),
      if_neg (by simp [hfits])]
  rfl

theorem dispatch_subm_deep (j r L : Nat) (evs : List Event)
    (hd : MAX_NESTING ≤ j + 1) :
    dispatchDelim
        ⟨List.replicate j (msgF r) ++ [topF], freshTag, evs, none⟩ 11 .subm L =
      ⟨List.replicate j (msgF r) ++ [topF], freshTag, evs,
        some .maxDepthExceeded⟩ := by
  have hM : MAX_NESTING = 64 := rfl
  rw [hM] at hd
  simp only [dispatchDelim]
  rw [if_pos (by
        simp only [List.length_append, List.length_replicate, List.length_cons,
          List.length_nil, hM]
        omega)]
  rfl

/-- Running the decoder over the `d`-deep nested input from a stack of
`j` enclosing submessage frames whose budgets all end exactly at the end
of the input: within the depth limit the input decodes to the fully
nested trace and pops every enclosing frame; beyond the limit the decode
fails with MaxDepthExceeded. -/
theorem nested_run (d : Nat) : 1 ≤ d → nestedLen d < 2 ^ 64 →
    ∀ (j : Nat) (evs : List Event),
      (j + 1 + d ≤ MAX_NESTING →
        putBytes testSchema
            ⟨List.replicate j (msgF (nestedLen d)) ++ [topF], freshTag, evs, none⟩
            (nestedN d) =
          ⟨[topF], freshTag, evs ++ nestedB d ++ popsE j, none⟩) ∧
      (MAX_NESTING < j + 1 + d →
        (putBytes testSchema
            ⟨List.replicate j (msgF (nestedLen d)) ++ [topF], freshTag, evs, none⟩
            (nestedN d)).err = some DErr.maxDepthExceeded) := by
  induction d with
  | zero => intro h; exact absurd h (by omega)
  | succ d ih =>
    intro _ hlen j evs
    have hM : MAX_NESTING = 64 := rfl
    have hvl : 0 < (venc (nestedLen d)).length :=
      vencF_len_pos 10 (nestedLen d) (by omega)
    have hLs := nestedLen_succ d
    have hL0 : nestedLen d < 2 ^ 64 := by omega
    have hPrefix : putBytes testSchema
        ⟨List.replicate j (msgF (nestedLen (d + 1))) ++ [topF], freshTag, evs, none⟩
        (venc (11 * 8 + WT_DELIMITED) ++ venc (nestedLen d)) =
        errOrSettle (dispatchDelim
          ⟨List.replicate j (msgF (nestedLen d)) ++ [topF], freshTag, evs, none⟩
          11 .subm (nestedLen d)) := by
      rw [putBytes_append,
          run_tag testSchema (11 * 8 + WT_DELIMITED) (by norm_num [WT_DELIMITED])
            (List.replicate j (msgF (nestedLen (d + 1))) ++ [topF]) evs
            (headSafe_subs j _ _
              (by rw [show (venc (11 * 8 + WT_DELIMITED)).length = 1 from rfl]; omega)),
          show (venc (11 * 8 + WT_DELIMITED)).length = 1 from rfl,
          tickN_subs 1 j (nestedLen (d + 1)),
          dispatch_msg_tag j _ evs,
          errOrSettle_none _ rfl,
          settle_mid (List.replicate j (msgF (nestedLen (d + 1) - 1)) ++ [topF])
            (.delimLen 11 .subm 0 0 0) evs
            (headSub0_subs j _ (by omega)) rfl (by simp [freshTag]),
          run_len testSchema (nestedLen d) hL0
            (List.replicate j (msgF (nestedLen (d + 1) - 1)) ++ [topF]) evs 11 .subm
            (headSafe_subs j _ _ (by omega)),
          tickN_subs _ j _,
          show nestedLen (d + 1) - 1 - (venc (nestedLen d)).length = nestedLen d by
            omega]
    rw [show nestedN (d + 1) =
          (venc (11 * 8 + WT_DELIMITED) ++ venc (nestedLen d)) ++ nestedN d from rfl,
        putBytes_append, hPrefix]
    by_cases hdeep : 64 ≤ j + 1
    · rw [dispatch_subm_deep j _ _ evs (by rw [hM]; omega),
          errOrSettle_err _ DErr.maxDepthExceeded rfl,
          putBytes_of_err _ _ _ (by simp)]
      refine ⟨fun h => ?_, fun h => rfl⟩
      rw [hM] at h
      omega
    · push_neg at hdeep
      rw [dispatch_subm_push j _ _ evs (by rw [hM]; omega) (le_refl _),
          errOrSettle_none _ rfl]
      cases d with
      | zero =>
        rw [show nestedLen 0 = 0 from rfl,
            show (msgF 0 :: (List.replicate j (msgF 0) ++ [topF])) =
              List.replicate (j + 1) (msgF 0) ++ [topF] from rfl,
            settle_exhausted (j + 1)
              (evs ++ [Event.startSubMsg 11, Event.startMsg]),
            show nestedN 0 = [] from rfl, putBytes_nil]
        refine ⟨fun _ => ?_, fun h => ?_⟩
        · simp [nestedB, popsE, List.append_assoc]
        · rw [hM] at h; omega
      | succ e =>
        have hpos : 0 < nestedLen (e + 1) := by
          have := nestedLen_succ_ge_two e; omega
        rw [settle_fresh
              (msgF (nestedLen (e + 1)) ::
                (List.replicate j (msgF (nestedLen (e + 1))) ++ [topF]))
              (evs ++ [Event.startSubMsg 11, Event.startMsg])
              (headSub0_cons_sub 11 _ none false _ hpos),
            show (msgF (nestedLen (e + 1)) ::
                (List.replicate j (msgF (nestedLen (e + 1))) ++ [topF])) =
              List.replicate (j + 1) (msgF (nestedLen (e + 1))) ++ [topF] from rfl]
        have hIH := ih (by omega) hL0 (j + 1)
          (evs ++ [Event.startSubMsg 11, Event.startMsg])
        refine ⟨fun h => ?_, fun h => ?_⟩
        · rw [hIH.1 (by rw [hM] at h ⊢; omega)]
          simp [nestedB, popsE, List.append_assoc]
        · rw [hIH.2 (by rw [hM] at h ⊢; omega)]

/-- C4: decoding the canonical nested-submessage inputs, any nesting
depth exceeding MAX_NESTING fails with MaxDepthExceeded (the bound
`k < 2^59` keeps every length prefix encodable as a 64-bit varint),
while any depth of at most MAX_NESTING - 1 decodes successfully with
fully nested StartSubMessage/StartMessage/EndMessage/EndSubMessage
event pairs. -/
theorem C4_nesting_limit :
    (∀ k : Nat, MAX_NESTING < k → k < 2 ^ 59 →
      decodeTop testSchema (nestedN k) = .error .maxDepthExceeded) ∧
    (∀ k : Nat, k ≤ MAX_NESTING - 1 →
      decodeTop testSchema (nestedN k) = .ok (nestedTrace k)) := by
  have hM : MAX_NESTING = 64 := rfl
  constructor
  · intro k hk hbound
    have hll := nestedLen_le k
    have hlen : nestedLen k < 2 ^ 64 := by omega
    rw [hM] at hk
    have h := (nested_run k (by omega) hlen 0 [.startMsg]).2
      (by rw [hM]; omega)
    exact decodeTop_of_err testSchema (nestedN k) .maxDepthExceeded h
  · intro k hk
    rw [hM] at hk
    match k, hk with
    | 0, _ => rfl
    | m + 1, hk =>
      have hll := nestedLen_le (m + 1)
      have hlen : nestedLen (m + 1) < 2 ^ 64 := by omega
      have h := (nested_run (m + 1) (by omega) hlen 0 [.startMsg]).1
        (by rw [hM]; omega)
      have h' : putBytes testSchema dInit (nestedN (m + 1)) =
          ⟨[⟨.top, none, false⟩], freshTag,
            [Event.startMsg] ++ nestedB (m + 1) ++ popsE 0, none⟩ := h
      have h2 := decodeTop_ok testSchema (nestedN (m + 1)) none false
        ([Event.startMsg] ++ nestedB (m + 1) ++ popsE 0) h'
      rw [h2]
      simp [nestedTrace, popsE, closeSeqEvs]

/-- Witness for C4: 65 nested submessages (one more than MAX_NESTING)
fail with MaxDepthExceeded, while 3 nested submessages decode to the
fully nested trace. -/
theorem C4_nesting_limit_witness :
    decodeTop testSchema (nestedN 65) = .error .maxDepthExceeded ∧
    decodeTop testSchema (nestedN 3) = .ok (nestedTrace 3) :=
  ⟨C4_nesting_limit.1 65 (by norm_num [MAX_NESTING]) (by norm_num),
   C4_nesting_limit.2 3 (by norm_num [MAX_NESTING])⟩

/-! ## The def layer: schema construction

def.c is not part of the source tree; the functions below are modelled
from the spec (sections 3.2, 4.1, 4.2) and the doc comments of
upb/def.h, keeping the C API names. -/

/-- `upb_fieldtype_t` (def.h lines 160-172): the semantic types a field
can have. -/
inductive FType where
  | float | double | bool | string | bytes | message | enum
  | int32 | uint32 | int64 | uint64
deriving DecidableEq, Repr

/-- `upb_label_t` (def.h lines 175-179). -/
inductive Label where
  | optional | required | repeated
deriving DecidableEq, Repr

/-- `upb_intfmt_t` (def.h lines 183-187): `variableF` stands for
UPB_INTFMT_VARIABLE. -/
inductive IntFmt where
  | variableF | fixedF | zigzag
deriving DecidableEq, Repr

/-- Identity of a def that can serve as a subdef: a message or an enum,
referenced by an index into the pool. -/
inductive DefId where
  | msg (i : Nat)
  | enum (i : Nat)
deriving DecidableEq, Repr

/-- The `sub` union of `upb_fielddef` (def.h lines 398-402): unset, a
direct def reference, or a symbolic name pending resolution. -/
inductive SubRef where
  | unset
  | direct (d : DefId)
  | symbolic (name : String)
deriving DecidableEq, Repr

/-- `upb_fielddef` (def.h lines 393-411): name, number, type (with its
explicitly-set flag), label, integer format, tag-delimitedness, subdef
reference, parent message, whether the default is still symbolic, and
the frozen bit. -/
structure FieldD where
  fullname : Option String
  number : Nat
  typeIsSet : Bool
  ftype : FType
  label : Label
  intfmt : IntFmt
  tagdelim : Bool
  sub : SubRef
  msgdef : Option Nat
  defaultIsSymbolic : Bool
  frozen : Bool
deriving DecidableEq, Repr

/-- `upb_msgdef` (def.h lines 574-584): name, its fields (the itof/ntof
indices are lookups over this list), and the frozen bit. -/
structure MsgD where
  fullname : Option String
  fields : List Nat
  frozen : Bool
deriving DecidableEq, Repr

/-- `upb_enumdef` (def.h lines 705-711). -/
structure EnumD where
  fullname : Option String
  vals : List (String × Int)
  defaultval : Int
  frozen : Bool
deriving DecidableEq, Repr

/-- A pool of defs addressed by index; models the heap of def objects. -/
structure DefPool where
  msgs : List (Nat × MsgD)
  flds : List (Nat × FieldD)
  enums : List (Nat × EnumD)
deriving DecidableEq, Repr

def DefPool.msg? (p : DefPool) (i : Nat) : Option MsgD := p.msgs.lookup i
def DefPool.fld? (p : DefPool) (i : Nat) : Option FieldD := p.flds.lookup i
def DefPool.enum? (p : DefPool) (i : Nat) : Option EnumD := p.enums.lookup i

/-- Replace the value stored under key `k`. -/
def alUpdate {α : Type} (l : List (Nat × α)) (k : Nat) (v : α) : List (Nat × α) :=
  l.map fun kv => if kv.1 = k then (k, v) else kv

/-- Modelled from the spec: `upb_fielddef_new` (def.c is absent).  The
def.h doc comments pin the defaults: type not yet set (line 263), label
UPB_LABEL_OPTIONAL (line 265), name NULL (line 266), number 0 (line
267), integer format UPB_INTFMT_VARIABLE (line 304). -/
def upb_fielddef_new : FieldD :=
  { fullname := none
    number := 0
    typeIsSet := false
    ftype := .int32
    label := .optional
    intfmt := .variableF
    tagdelim := false
    sub := .unset
    msgdef := none
    defaultIsSymbolic := false
    frozen := false }

def upb_fielddef_typeisset (f : FieldD) : Bool := f.typeIsSet
def upb_fielddef_label (f : FieldD) : Label := f.label
def upb_fielddef_number (f : FieldD) : Nat := f.number
def upb_fielddef_name (f : FieldD) : Option String := f.fullname
def upb_fielddef_intfmt (f : FieldD) : IntFmt := f.intfmt

/-- `upb_fielddef_hassubdef`: message- and enum-typed fields reference a
subdef. -/
def upb_fielddef_hassubdef (f : FieldD) : Bool :=
  f.ftype = .message ∨ f.ftype = .enum

/-- `upb_fielddef_subdef` (def.h lines 362-372): the direct subdef, or
NULL when unset or currently symbolic. -/
def upb_fielddef_subdef (f : FieldD) : Option DefId :=
  match f.sub with
  | .direct d => some d
  | _ => none

/-- `upb_fielddef_subdefname`: the symbolic subdef name, or NULL when
unset or currently a direct reference. -/
def upb_fielddef_subdefname (f : FieldD) : Option String :=
  match f.sub with
  | .symbolic n => some n
  | _ => none

/-- `upb_msgdef_itof`: the field id of the message's field with the
given number. -/
def upb_msgdef_itof (p : DefPool) (m : MsgD) (num : Nat) : Option Nat :=
  m.fields.find? fun i =>
    match p.fld? i with
    | some f => f.number = num
    | none => false

/-- `upb_msgdef_ntof`: the field id of the message's field with the
given name. -/
def upb_msgdef_ntof (p : DefPool) (m : MsgD) (name : String) : Option Nat :=
  m.fields.find? fun i =>
    match p.fld? i with
    | some f => f.fullname = some name
    | none => false

/-- Modelled from the spec: `upb_msgdef_addfield` (def.c is absent; the
doc comment of upb::MessageDef::AddField, def.h lines 520-526, pins the
behaviour): requires the msgdef and the fielddef mutable, the fielddef's
name and number set, no name or number collision, and no current parent;
on success links `f.msgdef` and appends the field to the message's
indices; in every error case returns false with the pool unchanged. -/
def upb_msgdef_addfield (p : DefPool) (mId fId : Nat) : Bool × DefPool :=
  match p.msg? mId, p.fld? fId with
  | some m, some f =>
    if m.frozen then (false, p)
    else if f.frozen then (false, p)
    else if f.fullname = none then (false, p)
    else if f.number = 0 then (false, p)
    else if f.msgdef ≠ none then (false, p)
    else if (upb_msgdef_itof p m f.number).isSome then (false, p)
    else if (match f.fullname with
             | some n => (upb_msgdef_ntof p m n).isSome
             | none => true) then (false, p)
    else
      (true,
        { p with
          msgs := alUpdate p.msgs mId { m with fields := m.fields ++ [fId] }
          flds := alUpdate p.flds fId { f with msgdef := some mId } })
  | _, _ => (false, p)

/-- Full name of a referenced def. -/
def defFullname (p : DefPool) (d : DefId) : Option String :=
  match d with
  | .msg i => (p.msg? i).bind (·.fullname)
  | .enum i => (p.enum? i).bind (·.fullname)

/-- Modelled from the spec: `upb_fielddef_dup` (def.c is absent; the doc
comment of upb::FieldDef::Dup, def.h lines 239-244, pins the behaviour):
the copy is mutable and parentless, and a direct subdef reference is
made symbolic through the subdef's name, or unset if the subdef is
anonymous. -/
def upb_fielddef_dup (p : DefPool) (f : FieldD) : FieldD :=
  { f with
    frozen := false
    msgdef := none
    sub :=
      match f.sub with
      | .direct d =>
        match defFullname p d with
        | some n => .symbolic n
        | none => .unset
      | s => s }

/-- Modelled from the spec: `upb_msgdef_dup` (def.c is absent; def.h
lines 534-542): a mutable copy of the message together with copies of
all its fields, each with its subdef reference made symbolic. -/
def upb_msgdef_dup (p : DefPool) (m : MsgD) : MsgD × List FieldD :=
  ({ m with frozen := false },
    m.fields.filterMap fun i => (p.fld? i).map (upb_fielddef_dup p))

/-! ## Freeze -/

/-- The direct subdefs of a message's fields. -/
def subIds (p : DefPool) (mi : Nat) : List DefId :=
  match p.msg? mi with
  | some m =>
    m.fields.foldr
      (fun fi acc =>
        match p.fld? fi with
        | some f =>
          match f.sub with
          | .direct d => d :: acc
          | _ => acc
        | none => acc) []
  | none => []

/-- Whether a referenced def exists and is still mutable. -/
def isMutableDef (p : DefPool) (d : DefId) : Bool :=
  match d with
  | .msg i =>
    match p.msg? i with
    | some m => !m.frozen
    | none => false
  | .enum i =>
    match p.enum? i with
    | some e => !e.frozen
    | none => false

/-- One round of closure expansion: follow the fields of every message
in the set into its mutable direct subdefs. -/
def expandOnce (p : DefPool) (s : List DefId) : List DefId :=
  s.foldl
    (fun acc d =>
      match d with
      | .msg i =>
        acc ++ ((subIds p i).filter fun x => isMutableDef p x && decide (x ∉ acc))
      | .enum _ => acc) s

def closureN : Nat → DefPool → List DefId → List DefId
  | 0, _, s => s
  | n + 1, p, s => closureN n p (expandOnce p s)

/-- The transitive closure of mutable defs reachable from the roots
(spec 4.1: "it computes the transitive closure of mutable reachable
objects"). -/
def closure (p : DefPool) (roots : List DefId) : List DefId :=
  closureN (p.msgs.length + p.enums.length + 1) p
    (roots.filter (isMutableDef p))

/-- The freeze-time invariants of a single field (spec 3.2): type
explicitly set; message/enum fields have a resolved (direct) subdef;
symbolic defaults are resolved; ZigZag only on signed integer types;
tag-delimited only on message fields. -/
def validField (f : FieldD) : Bool :=
  f.typeIsSet &&
  (if upb_fielddef_hassubdef f then
      match f.sub with
      | .direct _ => true
      | _ => false
    else true) &&
  !f.defaultIsSymbolic &&
  (if f.intfmt = IntFmt.zigzag then
      decide (f.ftype = FType.int32 ∨ f.ftype = FType.int64)
    else true) &&
  (if f.tagdelim then decide (f.ftype = FType.message) else true)

/-- The numbers of a message's fields. -/
def fieldNums (p : DefPool) (m : MsgD) : List Nat :=
  m.fields.filterMap fun i => (p.fld? i).map (·.number)

/-- The names of a message's fields. -/
def fieldNames (p : DefPool) (m : MsgD) : List (Option String) :=
  m.fields.filterMap fun i => (p.fld? i).map (·.fullname)

/-- The freeze-time invariants of a message (spec 3.2): every field
valid, no duplicate field number, no duplicate field name. -/
def validMsg (p : DefPool) (m : MsgD) : Bool :=
  (m.fields.all fun i =>
    match p.fld? i with
    | some f => validField f
    | none => false) &&
  decide (fieldNums p m).Nodup &&
  decide (fieldNames p m).Nodup

/-- Per-def freeze-time validation. -/
def validDef (p : DefPool) (d : DefId) : Bool :=
  match d with
  | .msg i =>
    match p.msg? i with
    | some m => validMsg p m
    | none => false
  | .enum i => (p.enum? i).isSome

/-- Set the frozen bit of the given fields (a msgdef's fields are frozen
with it, def.h lines 101-103). -/
def markFieldsFrozen (l : List (Nat × FieldD)) (fids : List Nat) :
    List (Nat × FieldD) :=
  fids.foldl
    (fun l' i =>
      match l'.lookup i with
      | some f => alUpdate l' i { f with frozen := true }
      | none => l') l

/-- Flip the frozen bit of one def (and, for a message, of its fields). -/
def markOne (q : DefPool) (d : DefId) : DefPool :=
  match d with
  | .msg i =>
    match q.msg? i with
    | some m =>
      { q with
        msgs := alUpdate q.msgs i { m with frozen := true }
        flds := markFieldsFrozen q.flds m.fields }
    | none => q
  | .enum i =>
    match q.enum? i with
    | some e => { q with enums := alUpdate q.enums i { e with frozen := true } }
    | none => q

/-- Flip the frozen bits of a set of defs. -/
def markFrozen (p : DefPool) (c : List DefId) : DefPool := c.foldl markOne p

/-- Modelled from the spec: `upb_def_freeze` (def.c is absent; spec 4.1
and the doc comment of upb::Def::Freeze, def.h lines 101-113): compute
the transitive closure of mutable reachable defs, validate every per-def
invariant, and only then flip the frozen bits; on any validation failure
return false with no object changed. -/
def upb_def_freeze (p : DefPool) (roots : List DefId) : Bool × DefPool :=
  let c := closure p roots
  if c.all (validDef p) then (true, markFrozen p c) else (false, p)

/-- Whether a referenced def exists and is frozen. -/
def isFrozenDef (p : DefPool) (d : DefId) : Bool :=
  match d with
  | .msg i =>
    match p.msg? i with
    | some m => m.frozen
    | none => false
  | .enum i =>
    match p.enum? i with
    | some e => e.frozen
    | none => false

/-- Whether a referenced def exists in the pool. -/
def definedDef (p : DefPool) (d : DefId) : Bool :=
  match d with
  | .msg i => (p.msg? i).isSome
  | .enum i => (p.enum? i).isSome

/-! ## Lemmas about pool updates and freezing -/

theorem alUpdate_lookup {α : Type} (l : List (Nat × α)) (k k' : Nat) (v : α) :
    (alUpdate l k v).lookup k' =
      if k' = k then (l.lookup k).map fun _ => v else l.lookup k' := by
  induction l with
  | nil => by_cases h : k' = k <;> simp [alUpdate, h]
  | cons kv t ih =>
    obtain ⟨a, b⟩ := kv
    rw [show alUpdate ((a, b) :: t) k v =
        (if a = k then (k, v) else (a, b)) :: alUpdate t k v from rfl]
    by_cases hak : a = k
    · subst hak
      by_cases hk' : k' = a
      · subst hk'
        simp [List.lookup_cons]
      · simp [List.lookup_cons, beq_false_of_ne hk', ih, hk']
    · rw [if_neg hak]
      by_cases hk' : k' = a
      · subst hk'
        simp [List.lookup_cons, hak]
      · have hka : (k == a) = false := by
          apply beq_false_of_ne
          exact fun hh => hak hh.symm
        simp [List.lookup_cons, beq_false_of_ne hk', hka, ih]

theorem alUpdate_lookup_isSome {α : Type} (l : List (Nat × α)) (k k' : Nat)
    (v : α) : ((alUpdate l k v).lookup k').isSome = (l.lookup k').isSome := by
  rw [alUpdate_lookup]
  by_cases h : k' = k
  · subst h; cases l.lookup k' <;> simp
  · simp [h]

theorem alUpdate_lookup_self {α : Type} (l : List (Nat × α)) (k : Nat)
    (v w : α) (h : l.lookup k = some w) :
    (alUpdate l k v).lookup k = some v := by
  rw [alUpdate_lookup, if_pos rfl, h]
  rfl

theorem alUpdate_lookup_ne {α : Type} (l : List (Nat × α)) (k k' : Nat)
    (v : α) (h : k' ≠ k) : (alUpdate l k v).lookup k' = l.lookup k' := by
  rw [alUpdate_lookup, if_neg h]

theorem markFieldsFrozen_lookup (fids : List Nat) :
    ∀ (l : List (Nat × FieldD)) (i : Nat) (f : FieldD), l.lookup i = some f →
      (markFieldsFrozen l fids).lookup i =
        some (if i ∈ fids then { f with frozen := true } else f) := by
  induction fids with
  | nil => intro l i f h; simpa [markFieldsFrozen] using h
  | cons j rest ih =>
    intro l i f h
    show (markFieldsFrozen
        (match l.lookup j with
         | some g => alUpdate l j { g with frozen := true }
         | none => l) rest).lookup i = _
    by_cases hij : i = j
    · subst hij
      rw [h]
      have h2 : (alUpdate l i { f with frozen := true }).lookup i =
          some { f with frozen := true } :=
        alUpdate_lookup_self l i { f with frozen := true } f h
      rw [ih _ i { f with frozen := true } h2]
      by_cases hm : i ∈ rest <;> simp [hm]
    · cases hj : l.lookup j with
      | none =>
        rw [ih l i f h]
        simp [List.mem_cons, hij]
      | some g =>
        have h2 : (alUpdate l j { g with frozen := true }).lookup i = some f := by
          rw [alUpdate_lookup_ne l j i _ hij, h]
        rw [ih _ i f h2]
        simp [List.mem_cons, hij]

theorem markFieldsFrozen_lookup_none (fids : List Nat) :
    ∀ (l : List (Nat × FieldD)) (i : Nat), l.lookup i = none →
      (markFieldsFrozen l fids).lookup i = none := by
  induction fids with
  | nil => intro l i h; simpa [markFieldsFrozen] using h
  | cons j rest ih =>
    intro l i h
    show (markFieldsFrozen
        (match l.lookup j with
         | some g => alUpdate l j { g with frozen := true }
         | none => l) rest).lookup i = _
    cases hj : l.lookup j with
    | none => exact ih l i h
    | some g =>
      apply ih
      by_cases hij : i = j
      · subst hij; rw [hj] at h; cases h
      · rw [alUpdate_lookup_ne l j i _ hij, h]

/-- `markOne` only flips frozen bits: field lookups still succeed and
only the frozen flag may change. -/
theorem markOne_fld (q : DefPool) (d : DefId) (i : Nat) (f : FieldD)
    (h : q.fld? i = some f) :
    ∃ f', (markOne q d).fld? i = some f' ∧ f' = { f with frozen := f'.frozen } := by
  match d with
  | .enum j =>
    cases hj : List.lookup j q.enums with
    | none => exact ⟨f, by simp only [markOne, DefPool.enum?, hj]; exact h, by simp⟩
    | some e => exact ⟨f, by simp only [markOne, DefPool.enum?, hj]; exact h, by simp⟩
  | .msg j =>
    cases hj : List.lookup j q.msgs with
    | none => exact ⟨f, by simp only [markOne, DefPool.msg?, hj]; exact h, by simp⟩
    | some m =>
      refine ⟨if i ∈ m.fields then { f with frozen := true } else f, ?_, ?_⟩
      · simp only [markOne, DefPool.msg?, hj]
        exact markFieldsFrozen_lookup m.fields q.flds i f h
      · by_cases hm : i ∈ m.fields <;> simp [hm]

theorem markOne_defined (q : DefPool) (d d' : DefId)
    (h : definedDef q d' = true) : definedDef (markOne q d) d' = true := by
  match d, d' with
  | .msg j, .msg i =>
    cases hj : List.lookup j q.msgs with
    | none => simpa only [markOne, DefPool.msg?, hj] using h
    | some m =>
      simp only [markOne, DefPool.msg?, hj, definedDef] at h ⊢
      rw [alUpdate_lookup_isSome]
      exact h
  | .msg j, .enum i =>
    cases hj : List.lookup j q.msgs with
    | none => simpa only [markOne, DefPool.msg?, hj] using h
    | some m => simpa only [markOne, DefPool.msg?, hj, definedDef] using h
  | .enum j, .msg i =>
    cases hj : List.lookup j q.enums with
    | none => simpa only [markOne, DefPool.enum?, hj] using h
    | some e => simpa only [markOne, DefPool.enum?, hj, definedDef] using h
  | .enum j, .enum i =>
    cases hj : List.lookup j q.enums with
    | none => simpa only [markOne, DefPool.enum?, hj] using h
    | some e =>
      simp only [markOne, DefPool.enum?, hj, definedDef] at h ⊢
      rw [alUpdate_lookup_isSome]
      exact h

theorem markOne_frozen_mono (q : DefPool) (d d' : DefId)
    (h : isFrozenDef q d' = true) : isFrozenDef (markOne q d) d' = true := by
  match d, d' with
  | .msg j, .msg i =>
    cases hj : List.lookup j q.msgs with
    | none => simpa only [markOne, DefPool.msg?, hj] using h
    | some m =>
      simp only [markOne, DefPool.msg?, hj, isFrozenDef] at h ⊢
      rw [alUpdate_lookup]
      by_cases hij : i = j
      · subst hij
        rw [if_pos rfl, hj]
        rfl
      · rw [if_neg hij]
        exact h
  | .msg j, .enum i =>
    cases hj : List.lookup j q.msgs with
    | none => simpa only [markOne, DefPool.msg?, hj] using h
    | some m => simpa only [markOne, DefPool.msg?, hj, isFrozenDef] using h
  | .enum j, .msg i =>
    cases hj : List.lookup j q.enums with
    | none => simpa only [markOne, DefPool.enum?, hj] using h
    | some e => simpa only [markOne, DefPool.enum?, hj, isFrozenDef] using h
  | .enum j, .enum i =>
    cases hj : List.lookup j q.enums with
    | none => simpa only [markOne, DefPool.enum?, hj] using h
    | some e =>
      simp only [markOne, DefPool.enum?, hj, isFrozenDef] at h ⊢
      rw [alUpdate_lookup]
      by_cases hij : i = j
      · subst hij
        rw [if_pos rfl, hj]
        rfl
      · rw [if_neg hij]
        exact h

theorem markOne_freezes (q : DefPool) (d : DefId)
    (h : definedDef q d = true) : isFrozenDef (markOne q d) d = true := by
  match d with
  | .msg i =>
    cases hi : List.lookup i q.msgs with
    | none =>
      simp only [definedDef, DefPool.msg?, hi, Option.isSome_none] at h
      exact absurd h (by simp)
    | some m =>
      simp only [markOne, DefPool.msg?, hi, isFrozenDef]
      rw [alUpdate_lookup, if_pos rfl, hi]
      rfl
  | .enum i =>
    cases hi : List.lookup i q.enums with
    | none =>
      simp only [definedDef, DefPool.enum?, hi, Option.isSome_none] at h
      exact absurd h (by simp)
    | some e =>
      simp only [markOne, DefPool.enum?, hi, isFrozenDef]
      rw [alUpdate_lookup, if_pos rfl, hi]
      rfl

theorem markFrozen_frozen_mono (c : List DefId) :
    ∀ (q : DefPool) (d : DefId), isFrozenDef q d = true →
      isFrozenDef (markFrozen q c) d = true := by
  induction c with
  | nil => intro q d h; exact h
  | cons x rest ih =>
    intro q d h
    exact ih (markOne q x) d (markOne_frozen_mono q x d h)

theorem markFrozen_defined_mono (c : List DefId) :
    ∀ (q : DefPool) (d : DefId), definedDef q d = true →
      definedDef (markFrozen q c) d = true := by
  induction c with
  | nil => intro q d h; exact h
  | cons x rest ih =>
    intro q d h
    exact ih (markOne q x) d (markOne_defined q x d h)

theorem markFrozen_freezes (c : List DefId) :
    ∀ (q : DefPool), (∀ d ∈ c, definedDef q d = true) →
      ∀ d ∈ c, isFrozenDef (markFrozen q c) d = true := by
  induction c with
  | nil => intro q _ d hd; cases hd
  | cons x rest ih =>
    intro q h d hd
    show isFrozenDef (markFrozen (markOne q x) rest) d = true
    cases List.mem_cons.mp hd with
    | inl hx =>
      subst hx
      exact markFrozen_frozen_mono rest (markOne q d) d
        (markOne_freezes q d (h d (by simp)))
    | inr hr =>
      exact ih (markOne q x)
        (fun d' hd' => markOne_defined q x d' (h d' (by simp [hd']))) d hr

theorem validDef_defined (p : DefPool) (d : DefId)
    (h : validDef p d = true) : definedDef p d = true := by
  match d with
  | .msg i =>
    cases hi : List.lookup i p.msgs with
    | none => simp [validDef, DefPool.msg?, hi] at h
    | some m => simp [definedDef, DefPool.msg?, hi]
  | .enum i =>
    simp only [validDef] at h
    exact h

/-! ## C6: freeze validates and flips frozen bits atomically -/

/-- C6: Freeze over a root set validates all per-def invariants and
flips the frozen bits atomically: it succeeds exactly when every def in
the mutable reachable closure validates; if validation fails it returns
false and the pool — in particular every frozen bit — is unchanged; if
it succeeds, every def in the mutable reachable closure becomes
frozen. -/
theorem C6_freeze_atomic (p : DefPool) (roots : List DefId) :
    ((upb_def_freeze p roots).1 = true ↔
      (closure p roots).all (validDef p) = true) ∧
    ((upb_def_freeze p roots).1 = false → (upb_def_freeze p roots).2 = p) ∧
    ((upb_def_freeze p roots).1 = true →
      ∀ d ∈ closure p roots, isFrozenDef (upb_def_freeze p roots).2 d = true) := by
  by_cases h : (closure p roots).all (validDef p) = true
  · have hf : upb_def_freeze p roots =
        (true, markFrozen p (closure p roots)) := by
      simp [upb_def_freeze, h]
    rw [hf]
    refine ⟨⟨fun _ => h, fun _ => rfl⟩, ?_, fun _ d hd => ?_⟩
    · intro hc
      exact absurd hc (by simp)
    · exact markFrozen_freezes (closure p roots) p
        (fun d' hd' => validDef_defined p d'
          (List.all_eq_true.mp h d' hd')) d hd
  · have hf : upb_def_freeze p roots = (false, p) := by
      simp only [upb_def_freeze]
      rw [if_neg h]
    rw [hf]
    refine ⟨⟨?_, fun hc => absurd hc h⟩, fun _ => rfl, ?_⟩
    · intro hc
      exact absurd hc (by simp)
    · intro hc
      exact absurd hc (by simp)

/-- A well-formed one-message pool for the freeze witness. -/
def c6PoolGood : DefPool :=
  ⟨[(0, ⟨some "M", [1], false⟩)],
   [(1, ⟨some "a", 3, true, .int32, .optional, .variableF, false, .unset,
       some 0, false, false⟩)],
   []⟩

/-- The same pool with the field's type left unset, violating a
freeze-time invariant. -/
def c6PoolBad : DefPool :=
  ⟨[(0, ⟨some "M", [1], false⟩)],
   [(1, ⟨some "a", 3, false, .int32, .optional, .variableF, false, .unset,
       some 0, false, false⟩)],
   []⟩

/-- Witness for C6: freezing the invalid pool fails and leaves it
unchanged, freezing the valid pool marks the reachable message
frozen. -/
theorem C6_freeze_atomic_witness :
    (upb_def_freeze c6PoolBad [.msg 0]).2 = c6PoolBad ∧
    isFrozenDef (upb_def_freeze c6PoolGood [.msg 0]).2 (.msg 0) = true :=
  ⟨(C6_freeze_atomic c6PoolBad [.msg 0]).2.1 rfl,
   (C6_freeze_atomic c6PoolGood [.msg 0]).2.2 rfl (.msg 0) (by decide)⟩

/-! ## C7: MessageDef::AddField -/

theorem find?_congr (l : List Nat) (pf q : Nat → Bool)
    (h : ∀ i ∈ l, pf i = q i) : l.find? pf = l.find? q := by
  induction l with
  | nil => rfl
  | cons a t ih =>
    have ha := h a (by simp)
    by_cases hp : pf a
    · rw [List.find?_cons_of_pos t hp, List.find?_cons_of_pos t (ha ▸ hp)]
    · rw [List.find?_cons_of_neg t hp,
        List.find?_cons_of_neg t (by rw [← ha]; exact hp),
        ih fun i hi => h i (by simp [hi])]

theorem find?_append_singleton {FN : Nat → Bool} (l : List Nat) (x : Nat)
    (h1 : ∀ i ∈ l, ¬ FN i = true) (h2 : FN x = true) :
    List.find? FN (l ++ [x]) = some x := by
  rw [List.find?_append, List.find?_eq_none.mpr h1, Option.none_or]
  exact List.find?_cons_of_pos _ h2

theorem fId_notin_of_itof_none (p : DefPool) (m : MsgD) (fId : Nat)
    (f : FieldD) (hf : p.fld? fId = some f)
    (hito : upb_msgdef_itof p m f.number = none) : fId ∉ m.fields := by
  intro hin
  have hnp := List.find?_eq_none.mp hito fId hin
  apply hnp
  show (match p.fld? fId with
    | some g => decide (g.number = f.number)
    | none => false) = true
  rw [hf]
  simp

theorem itof_after_add (p : DefPool) (mId fId : Nat) (m : MsgD) (f : FieldD)
    (hf : p.fld? fId = some f)
    (hito : upb_msgdef_itof p m f.number = none) :
    upb_msgdef_itof
      { p with
        msgs := alUpdate p.msgs mId { m with fields := m.fields ++ [fId] }
        flds := alUpdate p.flds fId { f with msgdef := some mId } }
      { m with fields := m.fields ++ [fId] } f.number = some fId := by
  have hnotin := fId_notin_of_itof_none p m fId f hf hito
  simp only [upb_msgdef_itof, DefPool.fld?] at hito ⊢
  apply find?_append_singleton
  · intro i hi
    rw [alUpdate_lookup_ne p.flds fId i _ fun he => hnotin (he ▸ hi)]
    exact List.find?_eq_none.mp hito i hi
  · rw [alUpdate_lookup_self p.flds fId _ f hf]
    simp

theorem ntof_after_add (p : DefPool) (mId fId : Nat) (m : MsgD) (f : FieldD)
    (nm : String) (hf : p.fld? fId = some f) (hnm : f.fullname = some nm)
    (hito : upb_msgdef_itof p m f.number = none)
    (hnto : upb_msgdef_ntof p m nm = none) :
    upb_msgdef_ntof
      { p with
        msgs := alUpdate p.msgs mId { m with fields := m.fields ++ [fId] }
        flds := alUpdate p.flds fId { f with msgdef := some mId } }
      { m with fields := m.fields ++ [fId] } nm = some fId := by
  have hnotin := fId_notin_of_itof_none p m fId f hf hito
  simp only [upb_msgdef_ntof, DefPool.fld?] at hnto ⊢
  apply find?_append_singleton
  · intro i hi
    rw [alUpdate_lookup_ne p.flds fId i _ fun he => hnotin (he ▸ hi)]
    exact List.find?_eq_none.mp hnto i hi
  · rw [alUpdate_lookup_self p.flds fId _ f hf]
    simp [hnm]

/-- C7: AddField succeeds exactly when the msgdef and the fielddef are
mutable, the fielddef's name and number are set, neither collides with
an existing field, and the fielddef has no current parent; on success it
sets the field's parent to the message and the field is found through
both the by-number and the by-name index; in every error case it
returns false and leaves the pool (in particular the msgdef)
unchanged. -/
theorem C7_addfield (p : DefPool) (mId fId : Nat) (m : MsgD) (f : FieldD)
    (hm : p.msg? mId = some m) (hf : p.fld? fId = some f) :
    ((upb_msgdef_addfield p mId fId).1 = true ↔
      (m.frozen = false ∧ f.frozen = false ∧ f.fullname ≠ none ∧
       f.number ≠ 0 ∧ f.msgdef = none ∧
       upb_msgdef_itof p m f.number = none ∧
       (∀ n, f.fullname = some n → upb_msgdef_ntof p m n = none))) ∧
    ((upb_msgdef_addfield p mId fId).1 = false →
      (upb_msgdef_addfield p mId fId).2 = p) ∧
    ((upb_msgdef_addfield p mId fId).1 = true →
      ∃ m', (upb_msgdef_addfield p mId fId).2.msg? mId = some m' ∧
        m'.fields = m.fields ++ [fId] ∧
        (upb_msgdef_addfield p mId fId).2.fld? fId =
          some { f with msgdef := some mId } ∧
        upb_msgdef_itof (upb_msgdef_addfield p mId fId).2 m' f.number = some fId ∧
        (∀ n, f.fullname = some n →
          upb_msgdef_ntof (upb_msgdef_addfield p mId fId).2 m' n = some fId)) := by
  have hdef : upb_msgdef_addfield p mId fId =
      (if m.frozen then (false, p)
       else if f.frozen then (false, p)
       else if f.fullname = none then (false, p)
       else if f.number = 0 then (false, p)
       else if f.msgdef ≠ none then (false, p)
       else if (upb_msgdef_itof p m f.number).isSome then (false, p)
       else if (match f.fullname with
                | some n => (upb_msgdef_ntof p m n).isSome
                | none => true) then (false, p)
       else
         (true,
           { p with
             msgs := alUpdate p.msgs mId { m with fields := m.fields ++ [fId] }
             flds := alUpdate p.flds fId { f with msgdef := some mId } })) := by
    simp only [upb_msgdef_addfield, hm, hf]
  by_cases h1 : m.frozen
  · rw [hdef, if_pos h1]
    refine ⟨?_, fun _ => rfl, fun hc => absurd hc (by simp)⟩
    simp [h1]
  by_cases h2 : f.frozen
  · rw [hdef, if_neg h1, if_pos h2]
    refine ⟨?_, fun _ => rfl, fun hc => absurd hc (by simp)⟩
    simp [h2]
  by_cases h3 : f.fullname = none
  · rw [hdef, if_neg h1, if_neg h2, if_pos h3]
    refine ⟨?_, fun _ => rfl, fun hc => absurd hc (by simp)⟩
    simp [h3]
  by_cases h4 : f.number = 0
  · rw [hdef, if_neg h1, if_neg h2, if_neg h3, if_pos h4]
    refine ⟨?_, fun _ => rfl, fun hc => absurd hc (by simp)⟩
    simp [h4]
  by_cases h5 : f.msgdef ≠ none
  · rw [hdef, if_neg h1, if_neg h2, if_neg h3, if_neg h4, if_pos h5]
    refine ⟨?_, fun _ => rfl, fun hc => absurd hc (by simp)⟩
    simp [h5]
  obtain ⟨nm, hnm⟩ : ∃ nm, f.fullname = some nm := by
    cases hfn : f.fullname with
    | none => exact absurd hfn h3
    | some nm => exact ⟨nm, rfl⟩
  cases hito : upb_msgdef_itof p m f.number with
  | some x =>
    rw [hdef, if_neg h1, if_neg h2, if_neg h3, if_neg h4, if_neg h5,
      if_pos (by rw [hito]; rfl)]
    refine ⟨?_, fun _ => rfl, fun hc => absurd hc (by simp)⟩
    simp only [Bool.false_eq_true, false_iff]
    intro big
    have hb := big.2.2.2.2.2.1
    simp [hito] at hb
  | none =>
    cases hnto : upb_msgdef_ntof p m nm with
    | some y =>
      rw [hdef, if_neg h1, if_neg h2, if_neg h3, if_neg h4, if_neg h5,
        if_neg (by rw [hito]; simp),
        if_pos (by simp only [hnm]; rw [hnto]; rfl)]
      refine ⟨?_, fun _ => rfl, fun hc => absurd hc (by simp)⟩
      simp only [Bool.false_eq_true, false_iff]
      intro big
      have hb := big.2.2.2.2.2.2 nm hnm
      simp [hnto] at hb
    | none =>
      have hres : upb_msgdef_addfield p mId fId =
          (true,
            { p with
              msgs := alUpdate p.msgs mId { m with fields := m.fields ++ [fId] }
              flds := alUpdate p.flds fId { f with msgdef := some mId } }) := by
        rw [hdef, if_neg h1, if_neg h2, if_neg h3, if_neg h4, if_neg h5,
          if_neg (by rw [hito]; simp),
          if_neg (by simp only [hnm]; rw [hnto]; simp)]
      have hnotin : fId ∉ m.fields := by
        intro hin
        have hnp := List.find?_eq_none.mp hito fId hin
        apply hnp
        show (match p.fld? fId with
          | some g => decide (g.number = f.number)
          | none => false) = true
        rw [hf]
        simp
      rw [hres]
      refine ⟨?_, fun hc => absurd hc (by simp), fun _ => ?_⟩
      · refine ⟨fun _ => ⟨?_, ?_, h3, h4, ?_, rfl, ?_⟩, fun _ => rfl⟩
        · simpa using h1
        · simpa using h2
        · exact of_not_not (by simpa using h5)
        · intro n hn
          rw [hnm] at hn
          cases hn
          exact hnto
      · refine ⟨{ m with fields := m.fields ++ [fId] }, ?_, rfl, ?_, ?_, ?_⟩
        · show (alUpdate p.msgs mId _).lookup mId = _
          exact alUpdate_lookup_self p.msgs mId _ m hm
        · show (alUpdate p.flds fId _).lookup fId = _
          exact alUpdate_lookup_self p.flds fId _ f hf
        · exact itof_after_add p mId fId m f hf hito
        · intro n hn
          rw [hnm] at hn
          cases hn
          exact ntof_after_add p mId fId m f nm hf hnm hito hnto


/-- One-message pool for the AddField witness. -/
def c7Msg : MsgD := ⟨some "M", [], false⟩

/-- A free-standing mutable field for the AddField witness. -/
def c7Fld : FieldD :=
  ⟨some "x", 7, true, .int32, .optional, .variableF, false, .unset,
    none, false, false⟩

/-- The pool holding c7Msg and c7Fld. -/
def c7Pool : DefPool := ⟨[(0, c7Msg)], [(5, c7Fld)], []⟩

/-- Witness for C7: adding the field succeeds and the updated message
finds it through both indices. -/
theorem C7_addfield_witness :
    (upb_msgdef_addfield c7Pool 0 5).1 = true ∧
    (∃ m', (upb_msgdef_addfield c7Pool 0 5).2.msg? 0 = some m' ∧
      m'.fields = c7Msg.fields ++ [5] ∧
      (upb_msgdef_addfield c7Pool 0 5).2.fld? 5 =
        some { c7Fld with msgdef := some 0 } ∧
      upb_msgdef_itof (upb_msgdef_addfield c7Pool 0 5).2 m' c7Fld.number =
        some 5 ∧
      (∀ n, c7Fld.fullname = some n →
        upb_msgdef_ntof (upb_msgdef_addfield c7Pool 0 5).2 m' n = some 5)) :=
  ⟨(C7_addfield c7Pool 0 5 c7Msg c7Fld rfl rfl).1.mpr
    ⟨rfl, rfl, by decide, by decide, rfl, rfl,
     fun n hn => by
       rw [show c7Fld.fullname = some "x" from rfl] at hn
       cases hn
       rfl⟩,
   (C7_addfield c7Pool 0 5 c7Msg c7Fld rfl rfl).2.2 (by decide)⟩

/-! ## C8: MessageDef::Dup / FieldDef::Dup -/

/-- C8: duplicating a field keeps its attributes but clears the parent
and the frozen bit; a direct subdef reference becomes symbolic through
the subdef's full name, or unset when the subdef is anonymous, so the
copy never holds a direct reference; duplicating a message copies it
mutably and duplicates every one of its fields the same way. -/
theorem C8_dup_symbolic (p : DefPool) (m : MsgD) (f : FieldD) :
    ((upb_fielddef_dup p f).fullname = f.fullname ∧
     (upb_fielddef_dup p f).number = f.number ∧
     (upb_fielddef_dup p f).ftype = f.ftype ∧
     (upb_fielddef_dup p f).frozen = false ∧
     (upb_fielddef_dup p f).msgdef = none) ∧
    upb_fielddef_subdef (upb_fielddef_dup p f) = none ∧
    (∀ d n, f.sub = SubRef.direct d → defFullname p d = some n →
      (upb_fielddef_dup p f).sub = SubRef.symbolic n) ∧
    (∀ d, f.sub = SubRef.direct d → defFullname p d = none →
      (upb_fielddef_dup p f).sub = SubRef.unset) ∧
    ((upb_msgdef_dup p m).1.fullname = m.fullname ∧
     (upb_msgdef_dup p m).1.frozen = false ∧
     (upb_msgdef_dup p m).1.fields = m.fields) ∧
    (∀ i ∈ m.fields, ∀ g, p.fld? i = some g →
      upb_fielddef_dup p g ∈ (upb_msgdef_dup p m).2) := by
  refine ⟨⟨rfl, rfl, rfl, rfl, rfl⟩, ?_, ?_, ?_, ⟨rfl, rfl, rfl⟩, ?_⟩
  · cases hs : f.sub with
    | unset => simp [upb_fielddef_subdef, upb_fielddef_dup, hs]
    | symbolic n => simp [upb_fielddef_subdef, upb_fielddef_dup, hs]
    | direct d =>
      cases hn : defFullname p d <;>
        simp [upb_fielddef_subdef, upb_fielddef_dup, hs, hn]
  · intro d n hd hn
    simp [upb_fielddef_dup, hd, hn]
  · intro d hd hn
    simp [upb_fielddef_dup, hd, hn]
  · intro i hi g hg
    refine List.mem_filterMap.mpr ⟨i, hi, ?_⟩
    rw [hg]
    rfl

/-- Pool for the Dup witness: a named message and an anonymous enum. -/
def c8Pool : DefPool :=
  ⟨[(0, ⟨some "Sub", [], false⟩)], [], [(0, ⟨none, [("A", 0)], 0, false⟩)]⟩

/-- A field directly referencing the named message. -/
def c8FNamed : FieldD :=
  ⟨some "a", 1, true, .message, .optional, .variableF, false,
    .direct (.msg 0), none, false, false⟩

/-- A field directly referencing the anonymous enum. -/
def c8FAnon : FieldD :=
  ⟨some "b", 2, true, .enum, .optional, .variableF, false,
    .direct (.enum 0), none, false, false⟩

/-- Witness for C8: a direct reference to a named def dups to a symbolic
reference, a direct reference to an anonymous def dups to unset. -/
theorem C8_dup_symbolic_witness :
    (upb_fielddef_dup c8Pool c8FNamed).sub = SubRef.symbolic "Sub" ∧
    (upb_fielddef_dup c8Pool c8FAnon).sub = SubRef.unset :=
  ⟨(C8_dup_symbolic c8Pool ⟨none, [], false⟩ c8FNamed).2.2.1
      (DefId.msg 0) "Sub" rfl rfl,
   (C8_dup_symbolic c8Pool ⟨none, [], false⟩ c8FAnon).2.2.2.1
      (DefId.enum 0) rfl rfl⟩

/-! ## C9: FieldDef::New defaults -/

/-- C9: a fresh fielddef starts in a definite default state: type not
yet set, label OPTIONAL, number 0, name NULL, and variable integer
format. -/
theorem C9_fielddef_defaults :
    upb_fielddef_typeisset upb_fielddef_new = false ∧
    upb_fielddef_label upb_fielddef_new = Label.optional ∧
    upb_fielddef_number upb_fielddef_new = 0 ∧
    upb_fielddef_name upb_fielddef_new = none ∧
    upb_fielddef_intfmt upb_fielddef_new = IntFmt.variableF :=
  ⟨rfl, rfl, rfl, rfl, rfl⟩

/-! ## C10: subdef / subdef_name access -/

/-- Freezing a set of defs keeps every field lookup and changes at most
the field's frozen flag. -/
theorem markFrozen_fld (c : List DefId) :
    ∀ (q : DefPool) (i : Nat) (f : FieldD), q.fld? i = some f →
      ∃ f', (markFrozen q c).fld? i = some f' ∧
        f' = { f with frozen := f'.frozen } := by
  induction c with
  | nil => intro q i f h; exact ⟨f, h, by simp⟩
  | cons x rest ih =>
    intro q i f h
    obtain ⟨g, hg, hge⟩ := markOne_fld q x i f h
    obtain ⟨f', hf', hfe⟩ := ih (markOne q x) i g hg
    refine ⟨f', hf', ?_⟩
    rw [hge] at hfe
    exact hfe

/-- C10: subdef and subdef_name read the two representations of the sub
union exclusively — each returns NULL when the union is unset or held in
the other representation — and after a successful freeze every
message/enum-typed field of a reachable message sits in a frozen message
and holds a direct subdef, so its subdef is non-NULL and its
subdef_name is NULL. -/
theorem C10_subdef_access (f : FieldD) (p : DefPool) (roots : List DefId) :
    (f.sub = SubRef.unset →
      upb_fielddef_subdef f = none ∧ upb_fielddef_subdefname f = none) ∧
    (∀ n, f.sub = SubRef.symbolic n →
      upb_fielddef_subdef f = none ∧ upb_fielddef_subdefname f = some n) ∧
    (∀ d, f.sub = SubRef.direct d →
      upb_fielddef_subdef f = some d ∧ upb_fielddef_subdefname f = none) ∧
    ((upb_def_freeze p roots).1 = true →
      ∀ i m, DefId.msg i ∈ closure p roots → p.msg? i = some m →
        isFrozenDef (upb_def_freeze p roots).2 (DefId.msg i) = true ∧
        (∀ j ∈ m.fields, ∀ g, p.fld? j = some g →
          upb_fielddef_hassubdef g = true →
          ∃ g', (upb_def_freeze p roots).2.fld? j = some g' ∧
            upb_fielddef_subdef g' ≠ none ∧
            upb_fielddef_subdefname g' = none)) := by
  refine ⟨?_, ?_, ?_, ?_⟩
  · intro hs
    exact ⟨by simp [upb_fielddef_subdef, hs],
      by simp [upb_fielddef_subdefname, hs]⟩
  · intro n hs
    exact ⟨by simp [upb_fielddef_subdef, hs],
      by simp [upb_fielddef_subdefname, hs]⟩
  · intro d hs
    exact ⟨by simp [upb_fielddef_subdef, hs],
      by simp [upb_fielddef_subdefname, hs]⟩
  · intro hfz i m hic hm
    have hall : (closure p roots).all (validDef p) = true := by
      by_cases hc : (closure p roots).all (validDef p)
      · exact hc
      · simp only [upb_def_freeze] at hfz
        rw [if_neg hc] at hfz
        exact absurd hfz (by simp)
    have hres : (upb_def_freeze p roots).2 = markFrozen p (closure p roots) := by
      simp only [upb_def_freeze]
      rw [if_pos hall]
    constructor
    · rw [hres]
      exact markFrozen_freezes (closure p roots) p
        (fun d hd => validDef_defined p d (List.all_eq_true.mp hall d hd))
        (DefId.msg i) hic
    · intro j hj g hg hhs
      have hvm : validMsg p m = true := by
        have hv := List.all_eq_true.mp hall _ hic
        simpa [validDef, hm] using hv
      have hvf : validField g = true := by
        simp only [validMsg, Bool.and_eq_true] at hvm
        have hv := List.all_eq_true.mp hvm.1.1 j hj
        simpa [hg] using hv
      have hdir : ∃ d, g.sub = SubRef.direct d := by
        simp only [validField, Bool.and_eq_true] at hvf
        have h2 := hvf.1.1.1.2
        rw [if_pos hhs] at h2
        cases hs : g.sub with
        | direct d => exact ⟨d, rfl⟩
        | unset => rw [hs] at h2; simp at h2
        | symbolic n => rw [hs] at h2; simp at h2
      obtain ⟨d, hdir⟩ := hdir
      obtain ⟨g', hg', hge⟩ := markFrozen_fld (closure p roots) p j g hg
      have hsub : g'.sub = SubRef.direct d := by
        rw [hge]
        exact hdir
      refine ⟨g', by rw [hres]; exact hg', ?_, ?_⟩
      · simp [upb_fielddef_subdef, hsub]
      · simp [upb_fielddef_subdefname, hsub]

/-- A message-typed field with a resolved (direct) subdef, for the C10
witness. -/
def c10Fld : FieldD :=
  ⟨some "s", 4, true, .message, .optional, .variableF, false,
    .direct (.msg 1), some 0, false, false⟩

/-- A two-message pool: message 0 holds the field, message 1 is its
subdef. -/
def c10Pool : DefPool :=
  ⟨[(0, ⟨some "M", [1], false⟩), (1, ⟨some "Sub", [], false⟩)],
   [(1, c10Fld)], []⟩

/-- Witness for C10: the direct field reads back through subdef and not
through subdef_name, and after freezing the pool the frozen field still
has a non-NULL subdef and a NULL subdef_name. -/
theorem C10_subdef_access_witness :
    upb_fielddef_subdef c10Fld = some (DefId.msg 1) ∧
    upb_fielddef_subdefname c10Fld = none ∧
    (∃ g', (upb_def_freeze c10Pool [DefId.msg 0]).2.fld? 1 = some g' ∧
      upb_fielddef_subdef g' ≠ none ∧
      upb_fielddef_subdefname g' = none) :=
  ⟨((C10_subdef_access c10Fld c10Pool [DefId.msg 0]).2.2.1
      (DefId.msg 1) rfl).1,
   ((C10_subdef_access c10Fld c10Pool [DefId.msg 0]).2.2.1
      (DefId.msg 1) rfl).2,
   ((C10_subdef_access c10Fld c10Pool [DefId.msg 0]).2.2.2 (by decide) 0
      ⟨some "M", [1], false⟩ (by decide) rfl).2 1 (by decide) c10Fld rfl
      (by decide)⟩

end Upb

